import Mathlib

/-!
Verification of the factor / variable-elimination core of the libpgm fork.

The Python modules `tablecpdfactor.py` and `tablecpdfactorization.py` are
shallowly embedded below.  Probability values are modelled as rationals,
Python dicts as insertion-ordered association lists, Python exceptions as an
explicit error type threaded through `Except`.  In-place mutation of factor
objects shared between `self.factorlist` and local lists is modelled by
treating the list `self.factorlist` as the object heap and local lists as
lists of positions into it.
-/

namespace LibPGM

/-- Python exception classes observed by the embedded code.  `isLookupError`
mirrors the Python class hierarchy, in which `IndexError` and `KeyError`
derive from `LookupError` while `ValueError` does not. -/
inductive PyError where
  | attributeError
  | valueError
  | keyError
  | indexError
  | zeroDivisionError
  deriving DecidableEq, Repr

def PyError.isLookupError : PyError → Bool
  | .keyError => true
  | .indexError => true
  | _ => false

/-- Per-vertex node data, as in `NodeData.Vdata` entries: the ordered parent
list, the ordered domain (`"vals"`), and the CPT (`"cprob"`).  The CPT is a
total function from parent-value tuples to probability vectors; for a vertex
without parents the vector is `cprob []`.  A Python `parents: None` behaves
exactly like `parents: []` in the code under `src/` and is modelled as `[]`. -/
structure VertexData where
  parents : List String
  vals : List String
  cprob : List String → List ℚ

/-- Modelled from the spec: the network / CPT provider and the order provider
(§6) supply, for each vertex, its `VertexData`, together with a topologically
ordered vertex list `V` (the class `DiscreteBayesianNetwork` itself is not
under `src/`). -/
structure DiscreteBayesianNetwork where
  V : List String
  Vdata : String → VertexData

/-! ## Python dict / list primitives

Python dicts are modelled as insertion-ordered association lists with
unique keys; `dictSet` overwrites in place or appends a fresh key at the
end, exactly as a Python dict does, and `dictDel` removes a key. -/

/-- Lookup of a key in a dict (`d[k]` returns `some`, a missing key `none`). -/
def dget : List (String × Nat) → String → Option Nat
  | [], _ => none
  | (k, v) :: d, s => if k = s then some v else dget d s

/-- Assignment `d[k] = v` on a Python dict: overwrite in place when the key
exists, append at the end otherwise. -/
def dictSet (d : List (String × Nat)) (k : String) (v : Nat) : List (String × Nat) :=
  if (dget d k).isSome then d.map (fun p => if p.1 = k then (k, v) else p)
  else d ++ [(k, v)]

/-- Deletion `del d[k]` on a Python dict. -/
def dictDel (d : List (String × Nat)) (k : String) : List (String × Nat) :=
  d.filter (fun p => p.1 ≠ k)

/-- Index of the first occurrence of `s`, as `list.index` computes it;
`none` corresponds to the `ValueError` Python raises when `s` is absent. -/
def pyIndexOf : List String → String → Option Nat
  | [], _ => none
  | x :: l, s => if x = s then some 0 else (pyIndexOf l s).map (· + 1)

/-- Python list indexing `l[i]` for a nonnegative in-range index.  The factor
algorithms below only ever index in range when the factor invariant holds
(out-of-range access, which raises `IndexError` in Python, is modelled as 0). -/
def pyIdx (l : List ℚ) (i : Int) : ℚ := l.getD i.toNat 0

/-- Python's actual list-indexing semantics on an `int` offset: a negative
index wraps once by the length, and anything still out of range raises
`IndexError`.  This strict variant is used where a claim is about the
out-of-range path itself (claim C7); on in-range runs it agrees with
`pyIdx`. -/
def pyIdxE (l : List ℚ) (i : Int) : Except PyError ℚ :=
  let j := if i < 0 then i + l.length else i
  if h : 0 ≤ j ∧ j.toNat < l.length then .ok (l.get ⟨j.toNat, h.2⟩)
  else .error .indexError

/-! ## TableCPDFactor (`tablecpdfactor.py`)

The Python object also stores `inputvertex` and `inputbn`; every factor of a
factorization references the one network, so the network is threaded as an
explicit argument to the operations that consult it (`reducefactor`) instead
of being stored in each factor. -/

structure TableCPDFactor where
  vals : List ℚ
  scope : List String
  card : List Nat
  stride : List (String × Nat)
  deriving DecidableEq, Inhabited, Repr

/-- Recursion `explore` inside `TableCPDFactor.__init__`: walk the parent
domains in declared order (first parent outermost) and concatenate the CPT
rows at each full parent-value tuple. -/
def explore (bn : DiscreteBayesianNetwork) (cprob : List String → List ℚ) :
    List String → List String → List ℚ
  | key, [] => cprob key
  | key, p :: ps =>
      ((bn.Vdata p).vals.map (fun val => explore bn cprob (key ++ [val]) ps)).flatten

/-- Stride construction in `TableCPDFactor.__init__`: running product of the
domain sizes of the scope entries, in scope order. -/
def strideBuildBN (bn : DiscreteBayesianNetwork) :
    List String → List (String × Nat) → Nat → List (String × Nat)
  | [], d, _ => d
  | s :: rest, d, t => strideBuildBN bn rest (dictSet d s t) (t * (bn.Vdata s).vals.length)

/-- Embedding of `TableCPDFactor.__init__(vertex, bn)`.  The two `assert`
statements of the no-parent branch are not modelled (they never fire on the
inputs considered here); scope is the vertex followed by its parents in
reverse declaration order. -/
def TableCPDFactor.init (vertex : String) (bn : DiscreteBayesianNetwork) : TableCPDFactor :=
  let vd := bn.Vdata vertex
  { vals := if vd.parents = [] then vd.cprob [] else explore bn vd.cprob [] vd.parents
    scope := vertex :: vd.parents.reverse
    card := vd.vals.length :: vd.parents.reverse.map (fun p => (bn.Vdata p).vals.length)
    stride := strideBuildBN bn (vertex :: vd.parents.reverse) [] 1 }

/-! ### multiplyfactor -/

/-- Scope/cardinality merge at the top of `multiplyfactor`: walk
`zip(other.scope, other.card)` and append the entries whose variable is not
yet present in the (growing) receiver scope. -/
def mergeScope : List String → List Nat → List (String × Nat) → List String × List Nat
  | scope, card, [] => (scope, card)
  | scope, card, (s, c) :: rest =>
      if s ∈ scope then mergeScope scope card rest
      else mergeScope (scope ++ [s]) (card ++ [c]) rest

/-- Stride contribution of variable `s` for one factor inside the odometer:
the factor's stride when `s` is in its stride dict, `0` otherwise (the code
guards each offset update with `if t_scope in self.stride`). -/
def strideD (d : List (String × Nat)) (s : String) : Int :=
  ((dget d s).map (Int.ofNat)).getD 0

/-- One odometer (mixed-radix counter) update of `multiplyfactor`: increment
the first variable's counter, resetting with carry while a counter wraps at
its cardinality, and advance the running offsets `j` (receiver) and `k`
(operand) by the respective strides. -/
def odoUpdate (sd od : List (String × Nat)) :
    List (Nat × String) → (String → Nat) → Int → Int → ((String → Nat) × Int × Int)
  | [], a, j, k => (a, j, k)
  | (c, s) :: rest, a, j, k =>
      let a1 := Function.update a s (a s + 1)
      if a1 s = c then
        odoUpdate sd od rest (Function.update a1 s 0)
          (j - ((c : Int) - 1) * strideD sd s) (k - ((c : Int) - 1) * strideD od s)
      else
        (a1, j + strideD sd s, k + strideD od s)

/-- Main loop of `multiplyfactor`: emit `self.vals[j] * other.vals[k]` for
each of the `prod(card)` positions, updating the odometer state in between. -/
def odoLoop (svals ovals : List ℚ) (sd od : List (String × Nat))
    (pairs : List (Nat × String)) :
    Nat → (String → Nat) → Int → Int → List ℚ
  | 0, _, _, _ => []
  | n + 1, a, j, k =>
      pyIdx svals j * pyIdx ovals k ::
        (let s := odoUpdate sd od pairs a j k
         odoLoop svals ovals sd od pairs n s.1 s.2.1 s.2.2)

/-- Main loop of `multiplyfactor` with Python's list-indexing semantics made
explicit: `self.vals[j]` is read before `other.vals[k]`, and the first
out-of-range offset raises `IndexError`, aborting the loop with no value
list produced. -/
def odoLoopE (svals ovals : List ℚ) (sd od : List (String × Nat))
    (pairs : List (Nat × String)) :
    Nat → (String → Nat) → Int → Int → Except PyError (List ℚ)
  | 0, _, _, _ => .ok []
  | n + 1, a, j, k =>
      match pyIdxE svals j with
      | .error e => .error e
      | .ok x =>
          match pyIdxE ovals k with
          | .error e => .error e
          | .ok y =>
              match (let s := odoUpdate sd od pairs a j k
                     odoLoopE svals ovals sd od pairs n s.1 s.2.1 s.2.2) with
              | .error e => .error e
              | .ok l => .ok (x * y :: l)

/-- Stride reconstruction at the end of `multiplyfactor`: running product of
the merged cardinalities over `zip(card, scope)`. -/
def strideBuild : List (Nat × String) → List (String × Nat) → Nat → List (String × Nat)
  | [], d, _ => d
  | (c, s) :: rest, d, t => strideBuild rest (dictSet d s t) (t * c)

/-- Embedding of `TableCPDFactor.multiplyfactor(self, other)`; returns the
value the mutated receiver holds afterwards (the operand is unchanged). -/
def TableCPDFactor.multiplyfactor (self other : TableCPDFactor) : TableCPDFactor :=
  let m := mergeScope self.scope self.card (other.scope.zip other.card)
  let scope := m.1
  let card := m.2
  let pairs := card.zip scope
  { vals := odoLoop self.vals other.vals self.stride other.stride pairs
      card.prod (fun _ => 0) 0 0
    scope := scope
    card := card
    stride := strideBuild pairs [] 1 }

/-! ### reducefactor -/

/-- Sum-out entry of `reducefactor` (no value given): sum of the
`vcard` entries spaced `vstride` apart starting at offset `k`. -/
def sumEntry (vals : List ℚ) (vstride vcard k : Nat) : ℚ :=
  ((List.range vcard).map (fun h => vals.getD (k + vstride * h) 0)).sum

/-- Evidence-select entry of `reducefactor` (value given, with domain index
`idx`): the single entry at offset `k + vstride * idx`. -/
def selEntry (vals : List ℚ) (vstride idx k : Nat) : ℚ :=
  vals.getD (k + vstride * idx) 0

/-- Index-walking loop of `reducefactor`: produce `n` output entries, where
the base offset `k` advances by 1 and jumps over the `vcard - 1` other slices
each time it completes a block of `lcard` (= product of the cardinalities
before the target in scope order). -/
def reduceRun (lcard vcard : Nat) (entry : Nat → ℚ) : Nat → Nat → List ℚ
  | 0, _ => []
  | n + 1, k =>
      entry k ::
        reduceRun lcard vcard entry n
          (let k1 := k + 1
           if k1 % lcard = 0 then k1 + lcard * (vcard - 1) else k1)

/-- Stride adjustment loop of `reducefactor`: for `count` positions starting
at `i`, divide the stride of the (post-removal) scope entry at that position
by the removed variable's cardinality. -/
def strideDivLoop (vcard : Nat) (scope : List String) :
    Nat → Nat → List (String × Nat) → List (String × Nat)
  | _, 0, d => d
  | i, n + 1, d =>
      let s := scope.getD i ""
      strideDivLoop vcard scope (i + 1) n (dictSet d s (((dget d s).getD 0) / vcard))

/-- Scope/cardinality/stride bookkeeping at the end of `reducefactor`:
remove the target from scope, delete its cardinality entry, divide the
strides of all later scope entries by its cardinality, delete its stride. -/
def reduceFinish (f : TableCPDFactor) (vertex : String) (vscope vcard : Nat)
    (vals' : List ℚ) : TableCPDFactor :=
  let scope' := f.scope.erase vertex
  { vals := vals'
    scope := scope'
    card := f.card.eraseIdx vscope
    stride := dictDel (strideDivLoop vcard scope' vscope (f.stride.length - 1 - vscope) f.stride) vertex }

/-- Embedding of `TableCPDFactor.reducefactor(self, vertex, value=None)`.
Errors mirror the Python exceptions in the order the code raises them:
`ValueError` from `scope.index` when the target is absent, `KeyError` from
the stride dict, `IndexError` from the cardinality list,
`ZeroDivisionError` from `len(vals) // 0` or from `k % 0` at the end of the
first loop iteration, and `ValueError` from the domain lookup of an unknown
evidence value.  On success the mutated factor is returned. -/
def TableCPDFactor.reducefactor (bn : DiscreteBayesianNetwork) (f : TableCPDFactor)
    (vertex : String) (value : Option String) : Except PyError TableCPDFactor :=
  match pyIndexOf f.scope vertex with
  | none => .error .valueError
  | some vscope =>
    match dget f.stride vertex with
    | none => .error .keyError
    | some vstride =>
      match f.card.get? vscope with
      | none => .error .indexError
      | some vcard =>
        if vcard = 0 then .error .zeroDivisionError
        else
          let n := f.vals.length / vcard
          let lcard := (f.card.take vscope).prod
          if n = 0 then .ok (reduceFinish f vertex vscope vcard [])
          else
            match value with
            | none =>
                if lcard = 0 then .error .zeroDivisionError
                else .ok (reduceFinish f vertex vscope vcard
                  (reduceRun lcard vcard (sumEntry f.vals vstride vcard) n 0))
            | some v =>
                match pyIndexOf (bn.Vdata vertex).vals v with
                | none => .error .valueError
                | some idx =>
                    if lcard = 0 then .error .zeroDivisionError
                    else .ok (reduceFinish f vertex vscope vcard
                      (reduceRun lcard vcard (selEntry f.vals vstride idx) n 0))

/-- Embedding of `TableCPDFactor.copy`: a fresh object with the same
contents (the constructor call inside `copy` is immediately overwritten). -/
def TableCPDFactor.copy (f : TableCPDFactor) : TableCPDFactor :=
  { vals := f.vals, scope := f.scope, card := f.card, stride := f.stride }

/-! ## TableCPDFactorization (`tablecpdfactorization.py`)

The factorization state is the contents of `self.factorlist`.  Because
`condition` copies only the list container while the factor objects stay
shared, `self.factorlist` is modelled as the object heap (a `List
TableCPDFactor` in object order) and the local `factorlist` of `condition`
as a list of positions into it. -/

/-- Modelled from the spec: `TableCPDFactorization.__init__` (in the module
`oldtablecpdfactorization`, not under `src/`) builds one factor per network
vertex, in vertex order ("one Factor per network vertex at construction
time", §3). -/
def initFactorlist (bn : DiscreteBayesianNetwork) : List TableCPDFactor :=
  bn.V.map (fun v => TableCPDFactor.init v bn)

/-- One list-comprehension pass of `condition` for evidence item
`(v, value)`: factors whose scope mentions `v` are reduced in place (the
heap entry is updated) and contribute the *return value* of `reducefactor`,
which is Python `None` (modelled as `Option.none`); other factors contribute
their own position.  An exception from `reducefactor` aborts the pass,
keeping the mutations made so far. -/
def condReduceStep (bn : DiscreteBayesianNetwork) (v value : String) :
    List Nat → List TableCPDFactor →
    List TableCPDFactor × Except PyError (List (Option Nat))
  | [], heap => (heap, .ok [])
  | i :: rest, heap =>
      let f := heap.getD i default
      if 0 < f.scope.count v then
        match f.reducefactor bn v (some value) with
        | .error e => (heap, .error e)
        | .ok f' =>
            match condReduceStep bn v value rest (heap.set i f') with
            | (h, .error e) => (h, .error e)
            | (h, .ok l) => (h, .ok (none :: l))
      else
        match condReduceStep bn v value rest heap with
        | (h, .error e) => (h, .error e)
        | (h, .ok l) => (h, .ok (some i :: l))

/-- The filter `[factor for factor in factorlist if factor.scope]` of
`condition`: keep the factors with nonempty scope; evaluating `factor.scope`
on a `None` left behind by the previous comprehension raises
`AttributeError`. -/
def condFilterStep (heap : List TableCPDFactor) :
    List (Option Nat) → Except PyError (List Nat)
  | [] => .ok []
  | none :: _ => .error .attributeError
  | some i :: rest =>
      match condFilterStep heap rest with
      | .error e => .error e
      | .ok l => .ok (if (heap.getD i default).scope ≠ [] then i :: l else l)

/-- Loop of `condition` over the evidence items. -/
def condLoop (bn : DiscreteBayesianNetwork) :
    List (String × String) → List Nat → List TableCPDFactor →
    List TableCPDFactor × Except PyError (List Nat)
  | [], locals, heap => (heap, .ok locals)
  | (v, value) :: rest, locals, heap =>
      match condReduceStep bn v value locals heap with
      | (h, .error e) => (h, .error e)
      | (h, .ok opts) =>
          match condFilterStep h opts with
          | .error e => (h, .error e)
          | .ok locals' => condLoop bn rest locals' h

/-- Embedding of `TableCPDFactorization.condition(evidence, in_place,
reset_before)`.  `evidence = none` models passing Python `None`, on which
`evidence.items()` raises `AttributeError`.  The result is the pair of the
returned factor list (or the exception) and the contents of
`self.factorlist` after the call — the heap, or the returned list itself when
`in_place` is set and the call succeeds. -/
def condition (bn : DiscreteBayesianNetwork) (evidence : Option (List (String × String)))
    (in_place reset_before : Bool) (self : List TableCPDFactor) :
    Except PyError (List TableCPDFactor) × List TableCPDFactor :=
  -- Modelled from the spec: `self.reset()` (not under `src/`) restores the
  -- freshly constructed factor list (§3 lifecycle: the caller "retains and
  -- resets the FactorList").
  let fl := if reset_before then initFactorlist bn else self
  match evidence with
  | none => (.error .attributeError, fl)
  | some ev =>
      match condLoop bn ev (List.range fl.length) fl with
      | (h, .error e) => (.error e, h)
      | (h, .ok locals) =>
          let ret := locals.map (fun i => h.getD i default)
          (.ok ret, if in_place then ret else h)

/-- Modelled from the spec: `sumproducteliminatevar` (in the module
`oldtablecpdfactorization`, not under `src/`) partitions the factor list
into the factors mentioning the variable and the rest, multiplies the
mentioning factors together pairwise, sums the variable out of the product
and replaces the mentioning factors with the result (§4.4); a variable no
factor mentions is silently skipped. -/
def sumproducteliminatevar (bn : DiscreteBayesianNetwork) (v : String)
    (fl : List TableCPDFactor) : Except PyError (List TableCPDFactor) :=
  match fl.filter (fun f => v ∈ f.scope) with
  | [] => .ok fl
  | f :: fs =>
      match (fs.foldl TableCPDFactor.multiplyfactor f).reducefactor bn v none with
      | .error e => .error e
      | .ok r => .ok (fl.filter (fun f => v ∉ f.scope) ++ [r])

/-- Embedding of `TableCPDFactorization.sumproductve(vertices)`: eliminate
the vertices one by one (each elimination writes `self.factorlist`), then
multiply all remaining factors into a copy of the first; `self.factorlist[0]`
on an empty list raises `IndexError`.  Returns the new `self.factorlist`
paired with the result. -/
def sumproductve (bn : DiscreteBayesianNetwork) :
    List String → List TableCPDFactor →
    List TableCPDFactor × Except PyError TableCPDFactor
  | v :: rest, fl =>
      (match sumproducteliminatevar bn v fl with
       | .error e => (fl, .error e)
       | .ok fl' => sumproductve bn rest fl')
  | [], fl =>
      match fl with
      | [] => (fl, .error .indexError)
      | f :: rest => (fl, .ok (rest.foldl TableCPDFactor.multiplyfactor f.copy))

/-- Embedding of `TableCPDFactorization.condprobve(query, evidence)`:
condition in place on the evidence, eliminate every vertex outside query and
evidence, and L1-normalize the final factor (`x /= norm` raises
`ZeroDivisionError` when the sum is zero and at least one division runs).
Returns the result paired with the final contents of `self.factorlist`. -/
def condprobve (bn : DiscreteBayesianNetwork) (query : List String)
    (evidence : Option (List (String × String))) (self : List TableCPDFactor) :
    Except PyError TableCPDFactor × List TableCPDFactor :=
  match condition bn evidence true false self with
  | (.error e, h) => (.error e, h)
  | (.ok _, h) =>
      let evKeys := (evidence.getD []).map Prod.fst
      let eliminate := bn.V.filter (fun v => v ∉ query ∧ v ∉ evKeys)
      match sumproductve bn eliminate h with
      | (h', .error e) => (.error e, h')
      | (h', .ok factor) =>
          if factor.vals = [] then (.ok factor, h')
          else
            let norm := factor.vals.sum
            if norm = 0 then (.error .zeroDivisionError, h')
            else (.ok { factor with vals := factor.vals.map (· / norm) }, h')

/-- Recursion `findentry` of `specificquery`, iterating over the query
variables in dict order: for each accepted domain index of the current
variable, advance the flat offset by `index * stride[var]` and recurse on the
remaining variables; a variable absent from the result factor's stride dict
raises `KeyError`. -/
def findentry (stride : List (String × Nat)) :
    List (String × List Nat) → Nat → Except PyError (List Nat)
  | [], index => .ok [index]
  | (v, ridx) :: rest, index =>
      match ridx with
      | [] => .ok []
      | _ =>
          match dget stride v with
          | none => .error .keyError
          | some s =>
              ridx.foldl
                (fun acc r =>
                  match acc with
                  | .error e => .error e
                  | .ok l =>
                      match findentry stride rest (index + r * s) with
                      | .error e => .error e
                      | .ok l' => .ok (l ++ l'))
                (.ok [])

/-- Mapping of each query variable's accepted labels to domain indices
(`rindices` in `specificquery`); an unknown label raises `ValueError` from
`list.index`. -/
def rindicesCompute (bn : DiscreteBayesianNetwork) :
    List (String × List String) → Except PyError (List (String × List Nat))
  | [] => .ok []
  | (v, alts) :: rest =>
      match alts.mapM (fun a => (pyIndexOf (bn.Vdata v).vals a).elim (Except.error .valueError) .ok) with
      | .error e => .error e
      | .ok idxs =>
          match rindicesCompute bn rest with
          | .error e => .error e
          | .ok l => .ok ((v, idxs) :: l)

/-- Final summation of `specificquery`: starting from `fanswer = 0`, add up
`condprob.vals[i]` over the collected flat indices left to right (an
out-of-range index raises `IndexError`). -/
def sumEntries (vals : List ℚ) : List Nat → ℚ → Except PyError ℚ
  | [], acc => .ok acc
  | i :: rest, acc =>
      if h : i < vals.length then sumEntries vals rest (acc + vals.get ⟨i, h⟩)
      else .error .indexError

/-- Embedding of `TableCPDFactorization.specificquery(query, evidence)`:
run `condprobve` over the query keys, map accepted labels to domain indices,
enumerate all matching flat indices and sum the corresponding entries.
The default `evidence = none` is Python's default `None`. -/
def specificquery (bn : DiscreteBayesianNetwork) (query : List (String × List String))
    (evidence : Option (List (String × String))) (self : List TableCPDFactor) :
    Except PyError ℚ × List TableCPDFactor :=
  match condprobve bn (query.map Prod.fst) evidence self with
  | (.error e, h) => (.error e, h)
  | (.ok condprob, h) =>
      match rindicesCompute bn query with
      | .error e => (.error e, h)
      | .ok rq =>
          match rq with
          | [] => (.error .indexError, h)
          | _ =>
              match findentry condprob.stride rq 0 with
              | .error e => (.error e, h)
              | .ok findices =>
                  match sumEntries condprob.vals findices 0 with
                  | .error e => (.error e, h)
                  | .ok q => (.ok q, h)

/-! ## Intended evidence conditioning, from the spec

Used to check what the evidence-conditioning step was documented to produce
where the code crashes. -/

/-- Modelled from the spec: evidence conditioning (§4.5) — "every factor
whose scope contains [the evidence variable] is replaced by its
evidence-selected reduction; factors whose scope becomes empty after
reduction are dropped from the list". -/
def conditionSpec (bn : DiscreteBayesianNetwork) :
    List (String × String) → List TableCPDFactor → Except PyError (List TableCPDFactor)
  | [], fl => .ok fl
  | (v, value) :: rest, fl =>
      match fl.mapM (fun f =>
        if 0 < f.scope.count v then f.reducefactor bn v (some value) else .ok f) with
      | .error e => .error e
      | .ok fl' => conditionSpec bn rest (fl'.filter (fun f => f.scope ≠ []))

/-- Modelled from the spec: the distribution query (§4.6) with the intended
conditioning step substituted for the crashing one; elimination,
normalization and the elimination order are the embedded source functions. -/
def condprobveSpec (bn : DiscreteBayesianNetwork) (query : List String)
    (evidence : List (String × String)) (self : List TableCPDFactor) :
    Except PyError TableCPDFactor :=
  match conditionSpec bn evidence self with
  | .error e => .error e
  | .ok fl =>
      let evKeys := evidence.map Prod.fst
      let eliminate := bn.V.filter (fun v => v ∉ query ∧ v ∉ evKeys)
      match sumproductve bn eliminate fl with
      | (_, .error e) => .error e
      | (_, .ok factor) =>
          if factor.vals = [] then .ok factor
          else
            let norm := factor.vals.sum
            if norm = 0 then .error .zeroDivisionError
            else .ok { factor with vals := factor.vals.map (· / norm) }

/-! ## Internal consistency of a factor

`strideTable scope card 1` is the stride dict the constructor builds: the
running product of the cardinalities, keyed in scope order.  `Consistent`
is internal consistency of a factor as produced and maintained by the
operations; `MixedRadixInv` is the invariant exactly as the specification
states it. -/

/-- Stride table of a scope: entry `i` maps `scope[i]` to
`card[0] * ... * card[i-1]` (running product accumulated in `t`). -/
def strideTable : List (String × Nat) → Nat → List (String × Nat)
  | [], _ => []
  | (s, c) :: rest, t => (s, t) :: strideTable rest (t * c)

/-- Internal consistency of a factor: distinct scope entries, matching
scope/cardinality lengths, positive cardinalities, a value table of the full
mixed-radix size, and the stride dict of the constructor. -/
def Consistent (f : TableCPDFactor) : Prop :=
  f.scope.Nodup ∧
  f.card.length = f.scope.length ∧
  (∀ c ∈ f.card, 0 < c) ∧
  f.vals.length = f.card.prod ∧
  f.stride = strideTable (f.scope.zip f.card) 1

instance (f : TableCPDFactor) : Decidable (Consistent f) := by
  unfold Consistent; infer_instance

/-- The mixed-radix invariant in the specification's own terms: the value
table has the full size, the first scope variable has stride 1, and each
later scope variable's stride is the previous variable's stride times the
previous variable's cardinality. -/
def MixedRadixInv (f : TableCPDFactor) : Prop :=
  f.vals.length = f.card.prod ∧
  (0 < f.scope.length → dget f.stride (f.scope.getD 0 "") = some 1) ∧
  ∀ i, i + 1 < f.scope.length →
    dget f.stride (f.scope.getD (i + 1) "") =
      some ((dget f.stride (f.scope.getD i "")).getD 0 * f.card.getD i 0)

/-! ## Concrete networks

`testBN` is the network of `tests/test_inference.py` (vertex order: a
topological order of C → {Q1,Q2,Q3}, Q3 → Q4; the graph/toporder code is not
under `src/`).  `bnA` is a minimal one-vertex network used for witnesses. -/

def testBN : DiscreteBayesianNetwork where
  V := ["C", "Q1", "Q2", "Q3", "Q4"]
  Vdata := fun s =>
    if s = "C" then
      { parents := [], vals := ["C1", "C2", "C3"], cprob := fun _ => [1/10, 6/10, 3/10] }
    else if s = "Q1" then
      { parents := ["C"], vals := ["A1.1", "A1.2", "A1.3"],
        cprob := fun k =>
          if k = ["C1"] then [5/10, 0, 5/10]
          else if k = ["C2"] then [0, 5/10, 5/10]
          else if k = ["C3"] then [5/10, 5/10, 0] else [] }
    else if s = "Q2" then
      { parents := ["C"], vals := ["A2.1", "A2.2"],
        cprob := fun k =>
          if k = ["C1"] then [9/10, 1/10]
          else if k = ["C2"] then [1/10, 9/10]
          else if k = ["C3"] then [5/10, 5/10] else [] }
    else if s = "Q3" then
      { parents := ["C"], vals := ["A", "B", "Both"],
        cprob := fun k =>
          if k = ["C1"] then [5/10, 3/10, 2/10]
          else if k = ["C2"] then [9/10, 1/10, 0]
          else if k = ["C3"] then [6/10, 3/10, 1/10] else [] }
    else if s = "Q4" then
      { parents := ["Q3"], vals := ["Yes", "No", "N/A"],
        cprob := fun k =>
          if k = ["A"] then [5/10, 5/10, 0]
          else if k = ["Both"] then [5/10, 5/10, 0]
          else if k = ["B"] then [0, 0, 1] else [] }
    else { parents := [], vals := [], cprob := fun _ => [] }

def bnA : DiscreteBayesianNetwork where
  V := ["A"]
  Vdata := fun _ =>
    { parents := [], vals := ["x", "y"], cprob := fun _ => [1/2, 1/2] }

/-! ## Derived notions used in the claim statements -/

/-- Cardinality a factor records for a variable: the `card` entry at the
variable's scope position (0 when the variable is not in scope). -/
def cardOf (f : TableCPDFactor) (v : String) : Nat :=
  match pyIndexOf f.scope v with
  | some i => f.card.getD i 0
  | none => 0

/-- Compatibility of two factors for multiplication (the normal case of the
spec's §4.2): every variable in both scopes records the same cardinality in
both factors.  On this domain every offset of the multiplication loop is in
range, so the total model of list indexing coincides with Python; the
mismatched case is claim C7's. -/
def CompatibleCards (A B : TableCPDFactor) : Prop :=
  ∀ v ∈ A.scope, v ∈ B.scope → cardOf A v = cardOf B v

instance (A B : TableCPDFactor) : Decidable (CompatibleCards A B) := by
  unfold CompatibleCards; infer_instance

/-- Result of an in-place `reducefactor` call as seen through a shared
reference: the reduced factor on success, the unchanged factor when the call
raised. -/
def reduceOr (bn : DiscreteBayesianNetwork) (f : TableCPDFactor)
    (v value : String) : TableCPDFactor :=
  match f.reducefactor bn v (some value) with
  | .ok g => g
  | .error _ => f

/-- Success test for an `Except` result. -/
def exOk {ε α : Type} : Except ε α → Bool
  | .ok _ => true
  | .error _ => false

/-- Well-formedness of one vertex's node data, mirroring what the CPT
invariant (§3) and the constructor's `assert` demand: the vertex and its
parents are distinct names, every domain involved is nonempty, and every
conditional probability vector has the vertex's domain length. -/
def InitWF (bn : DiscreteBayesianNetwork) (vertex : String) : Prop :=
  (vertex :: (bn.Vdata vertex).parents.reverse).Nodup ∧
  0 < (bn.Vdata vertex).vals.length ∧
  (∀ p ∈ (bn.Vdata vertex).parents, 0 < (bn.Vdata p).vals.length) ∧
  ∀ key, ((bn.Vdata vertex).cprob key).length = (bn.Vdata vertex).vals.length

/-- Well-formedness of a network: distinct vertex names, every vertex's node
data well formed, and every parent a network vertex. -/
def BNWF (bn : DiscreteBayesianNetwork) : Prop :=
  bn.V.Nodup ∧
  ∀ v ∈ bn.V, InitWF bn v ∧ ∀ p ∈ (bn.Vdata v).parents, p ∈ bn.V

/-- A variable mentioned by some factor of a list. -/
def Mentions (fl : List TableCPDFactor) (x : String) : Prop :=
  ∃ f ∈ fl, x ∈ f.scope

/-! ### Mixed-radix helpers for the multiplication theorem -/

/-- Mixed-radix digits of `n` for the cardinality list `cards`
(least-significant digit first). -/
def digits : List Nat → Nat → List Nat
  | [], _ => []
  | c :: cs, n => n % c :: digits cs (n / c)

/-- Mixed-radix increment of a digit list. -/
def incDigits : List Nat → List Nat → List Nat
  | c :: cs, d :: ds => if d + 1 = c then 0 :: incDigits cs ds else (d + 1) :: ds
  | _, ds => ds

/-- Value of a digit list in mixed radix over `cards`. -/
def valD : List Nat → List Nat → Nat
  | c :: cs, d :: ds => d + c * valD cs ds
  | _, _ => 0

/-- Flat offset of an assignment (digit list, aligned with a scope) through a
stride dict: each digit is multiplied by its variable's stride, variables
absent from the dict contributing stride 0. -/
def dotStride : List Nat → List String → List (String × Nat) → Nat
  | d :: ds, s :: ss, st => d * (dget st s).getD 0 + dotStride ds ss st
  | _, _, _ => 0

/-! ## Basic lemmas -/

theorem pyIndexOf_eq_none (l : List String) (s : String) (h : s ∉ l) :
    pyIndexOf l s = none := by
  induction l with
  | nil => rfl
  | cons x xs ih =>
      simp only [List.mem_cons, not_or] at h
      simp [pyIndexOf, Ne.symm h.1, ih h.2]

theorem pyIndexOf_append_left (l t : List String) (s : String) (h : s ∈ l) :
    pyIndexOf (l ++ t) s = pyIndexOf l s := by
  induction l with
  | nil => cases h
  | cons x xs ih =>
      by_cases hx : x = s
      · simp [pyIndexOf, hx]
      · have hs : s ∈ xs := by
          rcases List.mem_cons.mp h with h' | h'
          · exact absurd h'.symm hx
          · exact h'
        simp [pyIndexOf, hx, ih hs]

theorem pyIndexOf_get (l : List String) (s : String) (h : s ∈ l) :
    ∃ i, pyIndexOf l s = some i ∧ ∃ hi : i < l.length, l.get ⟨i, hi⟩ = s := by
  induction l with
  | nil => cases h
  | cons x xs ih =>
      by_cases hx : x = s
      · exact ⟨0, by simp [pyIndexOf, hx], by simp, hx⟩
      · have hs : s ∈ xs := by
          rcases List.mem_cons.mp h with h' | h'
          · exact absurd h'.symm hx
          · exact h'
        obtain ⟨i, hfind, hi, hget⟩ := ih hs
        exact ⟨i + 1, by simp [pyIndexOf, hx, hfind], by simpa using hi, by simpa using hget⟩

/-! ### Dict lemmas -/

theorem dget_eq_none_iff (d : List (String × Nat)) (k : String) :
    dget d k = none ↔ k ∉ d.map Prod.fst := by
  induction d with
  | nil => simp [dget]
  | cons p rest ih =>
      by_cases hp : p.1 = k
      · simp [dget, hp]
      · simp [dget, hp, ih, Ne.symm hp]

theorem dget_append (d1 d2 : List (String × Nat)) (k : String) :
    dget (d1 ++ d2) k =
      match dget d1 k with
      | some v => some v
      | none => dget d2 k := by
  induction d1 with
  | nil => simp [dget]
  | cons p rest ih =>
      by_cases hp : p.1 = k
      · simp [dget, hp]
      · simp [dget, hp, ih]

theorem dictSet_fresh (d : List (String × Nat)) (k : String) (v : Nat)
    (h : dget d k = none) : dictSet d k v = d ++ [(k, v)] := by
  simp [dictSet, h]

theorem dget_mapSet_self (d : List (String × Nat)) (k : String) (v : Nat)
    (h : (dget d k).isSome) :
    dget (d.map (fun p => if p.1 = k then (k, v) else p)) k = some v := by
  induction d with
  | nil => simp [dget] at h
  | cons p rest ih =>
      by_cases hp : p.1 = k
      · rw [List.map_cons, if_pos hp, dget, if_pos rfl]
      · rw [dget, if_neg hp] at h
        rw [List.map_cons, if_neg hp, dget, if_neg hp]
        exact ih h

theorem dget_mapSet_ne (d : List (String × Nat)) (k k' : String) (v : Nat)
    (h : k' ≠ k) :
    dget (d.map (fun p => if p.1 = k then (k, v) else p)) k' = dget d k' := by
  induction d with
  | nil => rfl
  | cons p rest ih =>
      by_cases hp : p.1 = k
      · rw [List.map_cons, if_pos hp, dget, if_neg (Ne.symm h), dget,
          if_neg (by rw [hp]; exact Ne.symm h)]
        exact ih
      · rw [List.map_cons, if_neg hp, dget, dget]
        by_cases hp' : p.1 = k'
        · rw [if_pos hp', if_pos hp']
        · rw [if_neg hp', if_neg hp']
          exact ih

theorem dget_dictSet_self (d : List (String × Nat)) (k : String) (v : Nat) :
    dget (dictSet d k v) k = some v := by
  unfold dictSet
  by_cases h : (dget d k).isSome
  · rw [if_pos h]
    exact dget_mapSet_self d k v h
  · rw [if_neg h, dget_append]
    rw [Option.not_isSome_iff_eq_none] at h
    simp [h, dget]

theorem dget_dictSet_ne (d : List (String × Nat)) (k k' : String) (v : Nat)
    (h : k' ≠ k) : dget (dictSet d k v) k' = dget d k' := by
  unfold dictSet
  by_cases hs : (dget d k).isSome
  · rw [if_pos hs]
    exact dget_mapSet_ne d k k' v h
  · rw [if_neg hs, dget_append]
    cases hd : dget d k' with
    | some v' => simp
    | none => simp [dget, Ne.symm h]

theorem mapSet_keys (d : List (String × Nat)) (k : String) (v : Nat) :
    (d.map (fun p => if p.1 = k then (k, v) else p)).map Prod.fst = d.map Prod.fst := by
  induction d with
  | nil => rfl
  | cons p rest ih =>
      by_cases hp : p.1 = k
      · rw [List.map_cons, if_pos hp, List.map_cons, List.map_cons, ih, hp]

      · rw [List.map_cons, if_neg hp, List.map_cons, List.map_cons, ih]

theorem dictSet_keys_present (d : List (String × Nat)) (k : String) (v : Nat)
    (h : (dget d k).isSome) :
    (dictSet d k v).map Prod.fst = d.map Prod.fst := by
  rw [dictSet, if_pos h]
  exact mapSet_keys d k v

theorem dictDel_cons (p : String × Nat) (rest : List (String × Nat)) (k : String) :
    dictDel (p :: rest) k =
      if p.1 = k then dictDel rest k else p :: dictDel rest k := by
  by_cases hp : p.1 = k
  · simp [dictDel, hp]
  · simp [dictDel, hp]

theorem dget_dictDel_self (d : List (String × Nat)) (k : String) :
    dget (dictDel d k) k = none := by
  rw [dget_eq_none_iff]
  intro hmem
  obtain ⟨p, hp, hfst⟩ := List.mem_map.mp hmem
  have := List.of_mem_filter hp
  simp [hfst] at this

theorem dget_dictDel_ne (d : List (String × Nat)) (k k' : String) (h : k' ≠ k) :
    dget (dictDel d k) k' = dget d k' := by
  induction d with
  | nil => rfl
  | cons p rest ih =>
      rw [dictDel_cons]
      by_cases hp : p.1 = k
      · have hne : p.1 ≠ k' := by rw [hp]; exact Ne.symm h
        rw [if_pos hp, ih, dget, if_neg hne]
      · rw [if_neg hp, dget, dget]
        by_cases hp' : p.1 = k'
        · rw [if_pos hp', if_pos hp']
        · rw [if_neg hp', if_neg hp', ih]

theorem dictDel_keys (d : List (String × Nat)) (k : String) :
    (dictDel d k).map Prod.fst = (d.map Prod.fst).filter (fun s => s ≠ k) := by
  induction d with
  | nil => rfl
  | cons p rest ih =>
      rw [dictDel_cons, List.map_cons, List.filter_cons]
      by_cases hp : p.1 = k
      · rw [if_pos hp, ih]
        simp [hp]
      · rw [if_neg hp, List.map_cons, ih]
        simp [hp]

/-- Two dicts with the same (duplicate-free) key sequence and the same
lookups are equal. -/
theorem dict_ext (d1 d2 : List (String × Nat))
    (hk : d1.map Prod.fst = d2.map Prod.fst)
    (hnd : (d1.map Prod.fst).Nodup)
    (hval : ∀ k, dget d1 k = dget d2 k) : d1 = d2 := by
  induction d1 generalizing d2 with
  | nil =>
      cases d2 with
      | nil => rfl
      | cons q _ => simp at hk
  | cons p rest ih =>
      cases d2 with
      | nil => simp at hk
      | cons q rest2 =>
          simp only [List.map_cons, List.cons.injEq] at hk
          have hfst : p.1 = q.1 := hk.1
          have hv : p.2 = q.2 := by
            have h1 := hval p.1
            simp [dget, hfst.symm] at h1
            exact h1
          have hnd' : (rest.map Prod.fst).Nodup := (List.nodup_cons.mp hnd).2
          have hnotin : p.1 ∉ rest.map Prod.fst := (List.nodup_cons.mp hnd).1
          have htail : rest = rest2 := by
            refine ih rest2 hk.2 hnd' (fun k => ?_)
            by_cases hkk : k = p.1
            · have h2 : p.1 ∉ rest2.map Prod.fst := by rw [← hk.2]; exact hnotin
              rw [hkk, (dget_eq_none_iff rest p.1).mpr hnotin,
                (dget_eq_none_iff rest2 p.1).mpr h2]
            · have h1 := hval k
              have hp1 : p.1 ≠ k := fun h => hkk h.symm
              have hq1 : q.1 ≠ k := by rw [← hfst]; exact hp1
              simpa [dget, hp1, hq1] using h1
          cases p; cases q
          simp only at hfst hv
          rw [hfst, hv, htail]

/-! ### strideTable lemmas -/

theorem strideTable_keys (pairs : List (String × Nat)) (t : Nat) :
    (strideTable pairs t).map Prod.fst = pairs.map Prod.fst := by
  induction pairs generalizing t with
  | nil => rfl
  | cons p rest ih => cases p; simp [strideTable, ih]

theorem dget_strideTable_none (pairs : List (String × Nat)) (t : Nat) (k : String)
    (h : k ∉ pairs.map Prod.fst) : dget (strideTable pairs t) k = none := by
  rw [dget_eq_none_iff, strideTable_keys]; exact h

theorem dget_strideTable (names : List String) (cards : List Nat) (t : Nat)
    (hnd : names.Nodup) (hlen : names.length ≤ cards.length)
    (i : Nat) (hi : i < names.length) :
    dget (strideTable (names.zip cards) t) (names.get ⟨i, hi⟩) =
      some (t * (cards.take i).prod) := by
  induction names generalizing cards t i with
  | nil => cases hi
  | cons x xs ih =>
      cases cards with
      | nil => simp at hlen
      | cons c cs =>
          cases i with
          | zero => simp [strideTable, dget]
          | succ j =>
              have hx : x ∉ xs := (List.nodup_cons.mp hnd).1
              have hj : j < xs.length := by simpa using hi
              have hne : x ≠ xs.get ⟨j, hj⟩ :=
                fun hEq => hx (hEq ▸ List.get_mem xs j hj)
              have hzip : (x :: xs).zip (c :: cs) = (x, c) :: xs.zip cs := rfl
              rw [hzip, strideTable, List.get_cons_succ, dget, if_neg hne,
                ih cs (t * c) (List.nodup_cons.mp hnd).2 (by simpa using hlen) j hj]
              simp [List.take_succ_cons, Nat.mul_assoc]

/-! ### Stride construction lemmas -/

theorem strideBuild_eq (pairs : List (Nat × String)) (d : List (String × Nat)) (t : Nat)
    (hfresh : ∀ p ∈ pairs, dget d p.2 = none)
    (hnd : (pairs.map Prod.snd).Nodup) :
    strideBuild pairs d t = d ++ strideTable (pairs.map (fun p => (p.2, p.1))) t := by
  induction pairs generalizing d t with
  | nil => simp [strideBuild, strideTable]
  | cons p rest ih =>
      obtain ⟨c, s⟩ := p
      have hfr : dget d s = none := hfresh (c, s) (List.mem_cons_self _ _)
      have hnotin : s ∉ rest.map Prod.snd := (List.nodup_cons.mp hnd).1
      rw [strideBuild, dictSet_fresh d s t hfr,
        ih (d ++ [(s, t)]) (t * c) ?_ (List.nodup_cons.mp hnd).2]
      · simp [strideTable]
      · intro q hq
        rw [dget_append, hfresh q (List.mem_cons_of_mem _ hq)]
        have hqs : s ≠ q.2 := fun hEq => hnotin (hEq ▸ List.mem_map_of_mem Prod.snd hq)
        simp [dget, hqs]

theorem strideBuildBN_eq (bn : DiscreteBayesianNetwork) (scope : List String)
    (d : List (String × Nat)) (t : Nat)
    (hfresh : ∀ s ∈ scope, dget d s = none) (hnd : scope.Nodup) :
    strideBuildBN bn scope d t =
      d ++ strideTable (scope.zip (scope.map (fun s => (bn.Vdata s).vals.length))) t := by
  induction scope generalizing d t with
  | nil => simp [strideBuildBN, strideTable]
  | cons x xs ih =>
      have hfr : dget d x = none := hfresh x (List.mem_cons_self _ _)
      have hnotin : x ∉ xs := (List.nodup_cons.mp hnd).1
      rw [strideBuildBN, dictSet_fresh d x t hfr,
        ih (d ++ [(x, t)]) (t * (bn.Vdata x).vals.length) ?_ (List.nodup_cons.mp hnd).2]
      · simp only [List.map_cons]
        have hzip : (x :: xs).zip ((bn.Vdata x).vals.length ::
            xs.map (fun s => (bn.Vdata s).vals.length))
            = (x, (bn.Vdata x).vals.length) ::
              xs.zip (xs.map (fun s => (bn.Vdata s).vals.length)) := rfl
        rw [hzip, strideTable, List.append_assoc]
        rfl
      · intro s hs
        rw [dget_append, hfresh s (List.mem_cons_of_mem _ hs)]
        have hxs : x ≠ s := fun hEq => hnotin (hEq ▸ hs)
        simp [dget, hxs]

/-! ### Scope merge lemmas -/

theorem mergeScope_eq (s : List String) (c : List Nat) (pairs : List (String × Nat))
    (hnd : (pairs.map Prod.fst).Nodup) :
    mergeScope s c pairs =
      (s ++ (pairs.filter (fun p => p.1 ∉ s)).map Prod.fst,
       c ++ (pairs.filter (fun p => p.1 ∉ s)).map Prod.snd) := by
  induction pairs generalizing s c with
  | nil => simp [mergeScope]
  | cons p rest ih =>
      obtain ⟨x, cx⟩ := p
      have hnotin : x ∉ rest.map Prod.fst := (List.nodup_cons.mp hnd).1
      by_cases hx : x ∈ s
      · rw [mergeScope, if_pos hx, ih s c (List.nodup_cons.mp hnd).2,
          List.filter_cons]
        simp [hx]
      · rw [mergeScope, if_neg hx, ih (s ++ [x]) (c ++ [cx]) (List.nodup_cons.mp hnd).2,
          List.filter_cons]
        have hcong : rest.filter (fun p => decide (p.1 ∉ s ++ [x]))
            = rest.filter (fun p => decide (p.1 ∉ s)) := by
          refine List.filter_congr (fun q hq => ?_)
          have hqx : q.1 ≠ x := fun hEq => hnotin (hEq ▸ List.mem_map_of_mem Prod.fst hq)
          simp [List.mem_append, hqx]
        simp only [hcong]
        simp [hx]

theorem zip_filter_fst (l1 : List String) (l2 : List Nat) (s : List String) :
    ((l1.zip l2).filter (fun p => p.1 ∉ s)).map Prod.fst
      = (l1.take l2.length).filter (fun x => x ∉ s) := by
  induction l1 generalizing l2 with
  | nil => simp
  | cons x xs ih =>
      cases l2 with
      | nil => simp
      | cons c cs =>
          have hzip : (x :: xs).zip (c :: cs) = (x, c) :: xs.zip cs := rfl
          rw [hzip, List.filter_cons]
          simp only [List.length_cons, List.take_succ_cons]
          rw [List.filter_cons]
          by_cases hx : x ∈ s
          · simp [hx]
            simpa using ih cs
          · simp [hx]
            simpa using ih cs

/-! ### Length lemmas -/

theorem odoLoop_length (sv ov : List ℚ) (sd od : List (String × Nat))
    (pairs : List (Nat × String)) :
    ∀ (n : Nat) (a : String → Nat) (j k : Int),
      (odoLoop sv ov sd od pairs n a j k).length = n := by
  intro n
  induction n with
  | zero => intro a j k; rfl
  | succ m ih => intro a j k; simp [odoLoop, ih]

theorem reduceRun_length (lcard vcard : Nat) (entry : Nat → ℚ) :
    ∀ (n k : Nat), (reduceRun lcard vcard entry n k).length = n := by
  intro n
  induction n with
  | zero => intro k; rfl
  | succ m ih => intro k; simp [reduceRun, ih]

theorem explore_length (bn : DiscreteBayesianNetwork) (cprob : List String → List ℚ)
    (L : Nat) (hrow : ∀ key, (cprob key).length = L) :
    ∀ (ps : List String) (key : List String),
      (explore bn cprob key ps).length
        = (ps.map (fun p => (bn.Vdata p).vals.length)).prod * L := by
  intro ps
  induction ps with
  | nil => intro key; simp [explore, hrow]
  | cons p rest ih =>
      intro key
      simp only [explore, List.length_flatten, List.map_map]
      have hconst : ∀ x ∈ (bn.Vdata p).vals,
          (List.length ∘ fun val => explore bn cprob (key ++ [val]) rest) x
            = (rest.map (fun q => (bn.Vdata q).vals.length)).prod * L := by
        intro x _
        simp [ih]
      rw [List.map_congr_left hconst, List.map_const', List.sum_replicate, smul_eq_mul]
      simp only [List.map_cons, List.prod_cons]
      ring

theorem multiplyfactor_scope_card (A B : TableCPDFactor)
    (hlenB : B.scope.length ≤ B.card.length) (hndB : B.scope.Nodup) :
    (A.multiplyfactor B).scope = A.scope ++ B.scope.filter (fun x => x ∉ A.scope) ∧
    (A.multiplyfactor B).card =
      A.card ++ ((B.scope.zip B.card).filter (fun p => p.1 ∉ A.scope)).map Prod.snd := by
  have hfst : (B.scope.zip B.card).map Prod.fst = B.scope := List.map_fst_zip _ _ hlenB
  have hnd : ((B.scope.zip B.card).map Prod.fst).Nodup := by rw [hfst]; exact hndB
  have hm := mergeScope_eq A.scope A.card (B.scope.zip B.card) hnd
  constructor
  · show (mergeScope A.scope A.card (B.scope.zip B.card)).1 = _
    rw [hm]
    rw [zip_filter_fst, List.take_of_length_le hlenB]
  · show (mergeScope A.scope A.card (B.scope.zip B.card)).2 = _
    rw [hm]

/-! ### Lemmas for the reduction bookkeeping -/

theorem pyIndexOf_some_get (l : List String) (s : String) (i : Nat)
    (h : pyIndexOf l s = some i) :
    ∃ hi : i < l.length, l.get ⟨i, hi⟩ = s := by
  induction l generalizing i with
  | nil => cases h
  | cons x xs ih =>
      rw [pyIndexOf] at h
      by_cases hx : x = s
      · rw [if_pos hx] at h
        injection h with h'
        subst h'
        exact ⟨by simp, hx⟩
      · rw [if_neg hx] at h
        cases hfind : pyIndexOf xs s with
        | none => rw [hfind] at h; cases h
        | some j =>
            rw [hfind] at h
            injection h with h'
            subst h'
            obtain ⟨hj, hget⟩ := ih j hfind
            exact ⟨by simpa using hj, by simpa using hget⟩

theorem erase_eq_eraseIdx_pyIndexOf (l : List String) (s : String) (i : Nat)
    (h : pyIndexOf l s = some i) : l.erase s = l.eraseIdx i := by
  induction l generalizing i with
  | nil => cases h
  | cons x xs ih =>
      rw [pyIndexOf] at h
      by_cases hx : x = s
      · rw [if_pos hx] at h
        injection h with h'
        subst h'
        rw [List.eraseIdx_cons_zero, hx, List.erase_cons_head]
      · rw [if_neg hx] at h
        cases hfind : pyIndexOf xs s with
        | none => rw [hfind] at h; cases h
        | some j =>
            rw [hfind] at h
            injection h with h'
            subst h'
            rw [List.eraseIdx_cons_succ, ← ih j hfind]
            simp [List.erase_cons, hx]

theorem dget_dictSet (d : List (String × Nat)) (k : String) (v : Nat) (k' : String) :
    dget (dictSet d k v) k' = if k' = k then some v else dget d k' := by
  by_cases h : k' = k
  · rw [if_pos h, h]; exact dget_dictSet_self d k v
  · rw [if_neg h]; exact dget_dictSet_ne d k k' v h

theorem dget_isSome_iff (d : List (String × Nat)) (k : String) :
    (dget d k).isSome = true ↔ k ∈ d.map Prod.fst := by
  constructor
  · intro h
    by_contra hmem
    have hnone := (dget_eq_none_iff d k).mpr hmem
    rw [hnone] at h
    simp at h
  · intro h
    cases hd : dget d k with
    | some v => simp
    | none =>
        rw [dget_eq_none_iff] at hd
        exact absurd h hd

theorem strideTable_length (pairs : List (String × Nat)) (t : Nat) :
    (strideTable pairs t).length = pairs.length := by
  induction pairs generalizing t with
  | nil => rfl
  | cons p rest ih => cases p; simp [strideTable, ih]

theorem strideDivLoop_keys (vcard : Nat) (sc : List String) :
    ∀ (count i : Nat) (d : List (String × Nat)),
      (∀ j, i ≤ j → j < i + count → (dget d (sc.getD j "")).isSome = true) →
      (strideDivLoop vcard sc i count d).map Prod.fst = d.map Prod.fst := by
  intro count
  induction count with
  | zero => intro i d _; rfl
  | succ n ih =>
      intro i d hpres
      rw [strideDivLoop]
      have hself : (dget d (sc.getD i "")).isSome = true :=
        hpres i (Nat.le_refl i) (by omega)
      rw [ih (i + 1) _ ?_, dictSet_keys_present _ _ _ hself]
      intro j hj1 hj2
      rw [dget_dictSet]
      by_cases hk : sc.getD j "" = sc.getD i ""
      · rw [if_pos hk]; rfl
      · rw [if_neg hk]
        exact hpres j (by omega) (by omega)

theorem strideDivLoop_dget_untouched (vcard : Nat) (sc : List String) :
    ∀ (count i : Nat) (d : List (String × Nat)) (k : String),
      (∀ j, i ≤ j → j < i + count → sc.getD j "" ≠ k) →
      dget (strideDivLoop vcard sc i count d) k = dget d k := by
  intro count
  induction count with
  | zero => intro i d k _; rfl
  | succ n ih =>
      intro i d k hne
      rw [strideDivLoop]
      rw [ih (i + 1) _ k (fun j h1 h2 => hne j (by omega) (by omega))]
      rw [dget_dictSet, if_neg ?_]
      exact fun h => hne i (Nat.le_refl i) (by omega) h.symm

theorem strideDivLoop_dget_touched (vcard : Nat) (sc : List String) (hnd : sc.Nodup) :
    ∀ (count i : Nat) (d : List (String × Nat)) (j0 : Nat) (hj : j0 < sc.length)
      (k : String),
      i + count ≤ sc.length →
      i ≤ j0 → j0 < i + count → sc.get ⟨j0, hj⟩ = k →
      (dget d k).isSome = true →
      dget (strideDivLoop vcard sc i count d) k = (dget d k).map (· / vcard) := by
  intro count
  induction count with
  | zero => intro i d j0 hj k _ h1 h2 _ _; omega
  | succ n ih =>
      intro i d j0 hj k hrange h1 h2 hk hsome
      rw [strideDivLoop]
      by_cases hji : j0 = i
      · have hsc : sc.getD i "" = k := by
          rw [← hk, ← hji]
          exact List.getD_eq_get sc "" hj
        obtain ⟨w, hw⟩ := Option.isSome_iff_exists.mp hsome
        rw [strideDivLoop_dget_untouched vcard sc n (i + 1) _ k ?_]
        · rw [hsc, dget_dictSet, if_pos rfl, hw]
          simp [Option.getD]
        · intro j hjl hjr hcontra
          have hjlen : j < sc.length := by omega
          have : sc.get ⟨j, hjlen⟩ = k := by
            rw [← hcontra]
            exact (List.getD_eq_get sc "" hjlen).symm
          have hinj := List.Nodup.get_inj_iff hnd (i := ⟨j, hjlen⟩) (j := ⟨j0, hj⟩)
          rw [this, hk] at hinj
          have := hinj.mp rfl
          simp at this
          omega
      · have hilen : i < sc.length := by omega
        have hne : sc.getD i "" ≠ k := by
          intro hcontra
          have : sc.get ⟨i, hilen⟩ = k := by
            rw [← hcontra]
            exact (List.getD_eq_get sc "" hilen).symm
          have hinj := List.Nodup.get_inj_iff hnd (i := ⟨i, hilen⟩) (j := ⟨j0, hj⟩)
          rw [this, hk] at hinj
          have := hinj.mp rfl
          simp at this
          omega
        rw [ih (i + 1) _ j0 hj k (by omega) (by omega) (by omega) hk ?_]
        · rw [dget_dictSet, if_neg (fun h => hne h.symm)]
        · rw [dget_dictSet, if_neg (fun h => hne h.symm)]
          exact hsome

theorem take_eraseIdx_le {α : Type} (l : List α) :
    ∀ (n i : Nat), i ≤ n → (l.eraseIdx n).take i = l.take i := by
  induction l with
  | nil => intro n i _; simp
  | cons x rest ih =>
      intro n i hi
      cases n with
      | zero =>
          have : i = 0 := Nat.le_zero.mp hi
          simp [this]
      | succ m =>
          cases i with
          | zero => simp
          | succ j =>
              rw [List.eraseIdx_cons_succ, List.take_succ_cons, List.take_succ_cons,
                ih m j (Nat.le_of_succ_le_succ hi)]

theorem prod_eraseIdx_get (l : List Nat) :
    ∀ (n c : Nat), l.get? n = some c → l.prod = c * (l.eraseIdx n).prod := by
  induction l with
  | nil => intro n c hc; cases hc
  | cons x rest ih =>
      intro n c hc
      cases n with
      | zero =>
          injection hc with h'
          rw [List.eraseIdx_cons_zero, List.prod_cons, h']
      | succ m =>
          rw [List.eraseIdx_cons_succ, List.prod_cons, List.prod_cons,
            ih m c hc]
          ring

theorem prod_take_succ_eraseIdx (l : List Nat) :
    ∀ (n c : Nat), l.get? n = some c →
      ∀ (i : Nat), n ≤ i →
        (l.take (i + 1)).prod = c * ((l.eraseIdx n).take i).prod := by
  induction l with
  | nil => intro n c hc; cases hc
  | cons x rest ih =>
      intro n c hc i hi
      cases n with
      | zero =>
          injection hc with h'
          rw [List.eraseIdx_cons_zero, List.take_succ_cons, List.prod_cons, h']
      | succ m =>
          cases i with
          | zero => omega
          | succ j =>
              rw [List.eraseIdx_cons_succ, List.take_succ_cons, List.take_succ_cons,
                List.prod_cons, List.prod_cons,
                ih m c hc j (Nat.le_of_succ_le_succ hi)]
              ring

theorem reducefactor_ok_elim (bn : DiscreteBayesianNetwork) (f : TableCPDFactor)
    (v : String) (val : Option String) (g : TableCPDFactor)
    (h : f.reducefactor bn v val = .ok g) :
    ∃ (vscope vstride vcard : Nat) (vals' : List ℚ),
      pyIndexOf f.scope v = some vscope ∧
      dget f.stride v = some vstride ∧
      f.card.get? vscope = some vcard ∧
      vcard ≠ 0 ∧
      vals'.length = f.vals.length / vcard ∧
      g = reduceFinish f v vscope vcard vals' := by
  unfold TableCPDFactor.reducefactor at h
  cases hfind : pyIndexOf f.scope v with
  | none => rw [hfind] at h; cases h
  | some vscope =>
      rw [hfind] at h
      dsimp only at h
      cases hstr : dget f.stride v with
      | none => rw [hstr] at h; cases h
      | some vstride =>
          rw [hstr] at h
          dsimp only at h
          cases hcard : f.card.get? vscope with
          | none => rw [hcard] at h; cases h
          | some vcard =>
              rw [hcard] at h
              dsimp only at h
              by_cases hvc : vcard = 0
              · rw [if_pos hvc] at h; cases h
              · rw [if_neg hvc] at h
                by_cases hn : f.vals.length / vcard = 0
                · rw [if_pos hn] at h
                  injection h with h'
                  exact ⟨vscope, vstride, vcard, [], rfl, rfl, hcard, hvc,
                    by simp [hn], h'.symm⟩
                · rw [if_neg hn] at h
                  cases val with
                  | none =>
                      dsimp only at h
                      by_cases hl : (f.card.take vscope).prod = 0
                      · rw [if_pos hl] at h; cases h
                      · rw [if_neg hl] at h
                        injection h with h'
                        exact ⟨vscope, vstride, vcard, _, rfl, rfl, hcard, hvc,
                          reduceRun_length _ _ _ _ _, h'.symm⟩
                  | some s =>
                      dsimp only at h
                      cases hidx : pyIndexOf (bn.Vdata v).vals s with
                      | none => rw [hidx] at h; cases h
                      | some idx =>
                          rw [hidx] at h
                          dsimp only at h
                          by_cases hl : (f.card.take vscope).prod = 0
                          · rw [if_pos hl] at h; cases h
                          · rw [if_neg hl] at h
                            injection h with h'
                            exact ⟨vscope, vstride, vcard, _, rfl, rfl, hcard, hvc,
                              reduceRun_length _ _ _ _ _, h'.symm⟩

theorem filter_ne_erase (l : List String) (v : String) (hnd : l.Nodup) :
    l.filter (fun s => decide (s ≠ v)) = l.erase v := by
  rw [List.Nodup.erase_eq_filter hnd v]
  refine List.filter_congr (fun x _ => ?_)
  by_cases h : x = v
  · simp [h]
  · simp [h]

theorem reducefactor_ok_consistent (bn : DiscreteBayesianNetwork) (f : TableCPDFactor)
    (v : String) (val : Option String) (g : TableCPDFactor) (hf : Consistent f)
    (h : f.reducefactor bn v val = .ok g) : Consistent g := by
  obtain ⟨hnd, hlen, hpos, hvals, hstr⟩ := hf
  obtain ⟨vscope, vstride, vcard, vals', hfind, hstrv, hcardv, hvc, hlenv, hg⟩ :=
    reducefactor_ok_elim bn f v val g h
  obtain ⟨hvs, hgetv⟩ := pyIndexOf_some_get f.scope v vscope hfind
  have hvmem : v ∈ f.scope := hgetv ▸ List.get_mem f.scope vscope hvs
  have herase : f.scope.erase v = f.scope.eraseIdx vscope :=
    erase_eq_eraseIdx_pyIndexOf f.scope v vscope hfind
  have hvsc : vscope < f.card.length := by rw [hlen]; exact hvs
  -- lengths of the pieces
  have hlenS : (f.scope.erase v).length = f.scope.length - 1 :=
    List.length_erase_of_mem hvmem
  have hlenC : (f.card.eraseIdx vscope).length = f.card.length - 1 := by
    rw [List.length_eraseIdx]
    simp [hvsc]
  have hstrLen : f.stride.length = f.scope.length := by
    rw [hstr, strideTable_length, List.length_zip, hlen, Nat.min_self]
  have hkeysStr : f.stride.map Prod.fst = f.scope := by
    rw [hstr, strideTable_keys]
    exact List.map_fst_zip f.scope f.card (le_of_eq hlen.symm)
  have hndE : (f.scope.erase v).Nodup := List.Nodup.erase v hnd
  -- the reduced factor's fields
  rw [hg]
  show Consistent
    { vals := vals', scope := f.scope.erase v, card := f.card.eraseIdx vscope,
      stride := dictDel (strideDivLoop vcard (f.scope.erase v) vscope
        (f.stride.length - 1 - vscope) f.stride) v }
  have hposE : 0 < vcard := Nat.pos_of_ne_zero hvc
  -- presence of every touched key in the stride dict
  have hpres : ∀ j, vscope ≤ j → j < vscope + (f.stride.length - 1 - vscope) →
      (dget f.stride ((f.scope.erase v).getD j "")).isSome = true := by
    intro j hj1 hj2
    have hjE : j < (f.scope.erase v).length := by omega
    rw [dget_isSome_iff, hkeysStr]
    have : (f.scope.erase v).getD j "" ∈ f.scope.erase v := by
      rw [List.getD_eq_getElem _ _ hjE]
      exact List.getElem_mem _
    exact List.erase_subset _ _ this
  refine ⟨hndE, ?_, ?_, ?_, ?_⟩
  · show (f.card.eraseIdx vscope).length = (f.scope.erase v).length
    omega
  · intro c hc
    refine hpos c ?_
    have hsub : f.card.eraseIdx vscope ⊆ f.card := by
      rw [List.eraseIdx_eq_take_drop_succ]
      intro x hx
      rcases List.mem_append.mp hx with hx | hx
      · exact List.take_subset _ _ hx
      · exact List.drop_subset _ _ hx
    exact hsub hc
  · show vals'.length = (f.card.eraseIdx vscope).prod
    rw [hlenv, hvals, prod_eraseIdx_get f.card vscope vcard hcardv,
      Nat.mul_div_cancel_left _ hposE]
  · show dictDel (strideDivLoop vcard (f.scope.erase v) vscope
        (f.stride.length - 1 - vscope) f.stride) v
      = strideTable ((f.scope.erase v).zip (f.card.eraseIdx vscope)) 1
    have hkeysLoop : (strideDivLoop vcard (f.scope.erase v) vscope
        (f.stride.length - 1 - vscope) f.stride).map Prod.fst = f.scope :=
      (strideDivLoop_keys vcard (f.scope.erase v) _ vscope f.stride hpres).trans hkeysStr
    refine dict_ext _ _ ?_ ?_ ?_
    · rw [dictDel_keys, hkeysLoop, strideTable_keys,
        List.map_fst_zip _ _ (by omega)]
      exact filter_ne_erase f.scope v hnd
    · rw [dictDel_keys, hkeysLoop, filter_ne_erase f.scope v hnd]
      exact hndE
    · intro k
      by_cases hkv : k = v
      · rw [hkv, dget_dictDel_self, dget_strideTable_none]
        rw [List.map_fst_zip _ _ (by omega)]
        intro hcontra
        exact (List.Nodup.not_mem_erase hnd) hcontra
      · rw [dget_dictDel_ne _ v k hkv]
        by_cases hkE : k ∈ f.scope.erase v
        · obtain ⟨⟨iE, hiE⟩, hgetE⟩ := List.mem_iff_get.mp hkE
          by_cases hlt : iE < vscope
          · -- untouched positions: stride unchanged, prefix products agree
            rw [strideDivLoop_dget_untouched vcard (f.scope.erase v) _ vscope f.stride k ?_]
            · have hiS : iE < f.scope.length := by omega
              have hgetS : f.scope.get ⟨iE, hiS⟩ = k := by
                have hq : (f.scope.erase v).get? iE = f.scope.get? iE := by
                  rw [herase, List.get?_eq_getElem?, List.get?_eq_getElem?]
                  exact List.getElem?_eraseIdx_of_lt f.scope vscope iE hlt
                rw [List.get?_eq_get hiE, List.get?_eq_get hiS] at hq
                injection hq with hq'
                rw [← hq']
                exact hgetE
              rw [hstr, ← hgetS, dget_strideTable f.scope f.card 1 hnd (le_of_eq hlen.symm) iE hiS,
                hgetS, ← hgetE,
                dget_strideTable (f.scope.erase v) (f.card.eraseIdx vscope) 1 hndE
                  (by omega) iE hiE]
              rw [take_eraseIdx_le f.card vscope iE (by omega)]
            · intro j hj1 hj2 hcontra
              have hjE : j < (f.scope.erase v).length := by omega
              have : (f.scope.erase v).get ⟨j, hjE⟩ = k := by
                rw [← hcontra, List.getD_eq_getElem _ _ hjE]
                rfl
              rw [← hgetE] at this
              have := (List.Nodup.get_inj_iff hndE).mp this
              simp only [Fin.mk.injEq] at this
              omega
          · -- touched positions: stride divided by the removed cardinality
            have hiRange : iE < vscope + (f.stride.length - 1 - vscope) := by omega
            rw [strideDivLoop_dget_touched vcard (f.scope.erase v) hndE _ vscope f.stride
              iE hiE k (by omega) (by omega) hiRange hgetE ?_]
            · have hiS : iE + 1 < f.scope.length := by omega
              have hgetS : f.scope.get ⟨iE + 1, hiS⟩ = k := by
                have hq : (f.scope.erase v).get? iE = f.scope.get? (iE + 1) := by
                  rw [herase, List.get?_eq_getElem?, List.get?_eq_getElem?]
                  exact List.getElem?_eraseIdx_of_ge f.scope vscope iE (by omega)
                rw [List.get?_eq_get hiE, List.get?_eq_get hiS] at hq
                injection hq with hq'
                rw [← hq']
                exact hgetE
              rw [hstr, ← hgetS, dget_strideTable f.scope f.card 1 hnd (le_of_eq hlen.symm)
                (iE + 1) hiS, hgetS, ← hgetE,
                dget_strideTable (f.scope.erase v) (f.card.eraseIdx vscope) 1 hndE
                  (by omega) iE hiE]
              rw [Option.map_some']
              congr 1
              rw [Nat.one_mul, Nat.one_mul,
                prod_take_succ_eraseIdx f.card vscope vcard hcardv iE (by omega),
                Nat.mul_div_cancel_left _ hposE]
            · rw [dget_isSome_iff, hkeysStr]
              exact List.erase_subset _ _ hkE
        · -- keys outside the reduced scope: both sides are `none`
          have hkS : k ∉ f.scope := by
            intro hcontra
            exact hkE ((List.Nodup.mem_erase_iff hnd).mpr ⟨hkv, hcontra⟩)
          rw [strideDivLoop_dget_untouched vcard (f.scope.erase v) _ vscope f.stride k ?_]
          · rw [(dget_eq_none_iff _ _).mpr (by rw [hkeysStr]; exact hkS),
              dget_strideTable_none]
            rw [List.map_fst_zip _ _ (by omega)]
            exact hkE
          · intro j hj1 hj2 hcontra
            have hjE : j < (f.scope.erase v).length := by omega
            refine hkE ?_
            rw [← hcontra, List.getD_eq_getElem _ _ hjE]
            exact List.getElem_mem _

/-! ### Consistency of construction and multiplication -/

theorem init_consistent (bn : DiscreteBayesianNetwork) (vertex : String)
    (h : InitWF bn vertex) : Consistent (TableCPDFactor.init vertex bn) := by
  obtain ⟨hnd, hpos, hppos, hrow⟩ := h
  refine ⟨hnd, by simp [TableCPDFactor.init], ?_, ?_, ?_⟩
  · intro c hc
    simp only [TableCPDFactor.init, List.mem_cons] at hc
    rcases hc with hc | hc
    · rw [hc]; exact hpos
    · obtain ⟨p, hp, hlen⟩ := List.mem_map.mp hc
      rw [← hlen]
      exact hppos p (List.mem_reverse.mp hp)
  · show (if (bn.Vdata vertex).parents = [] then (bn.Vdata vertex).cprob []
        else explore bn (bn.Vdata vertex).cprob [] (bn.Vdata vertex).parents).length = _
    by_cases hpar : (bn.Vdata vertex).parents = []
    · simp [TableCPDFactor.init, hpar, hrow []]
    · rw [if_neg hpar,
        explore_length bn (bn.Vdata vertex).cprob ((bn.Vdata vertex).vals.length) hrow]
      simp only [TableCPDFactor.init]
      rw [List.prod_cons, List.map_reverse, List.prod_reverse, Nat.mul_comm]
  · show strideBuildBN bn _ [] 1 = _
    rw [strideBuildBN_eq bn _ [] 1 (fun s _ => rfl) hnd]
    simp only [List.nil_append]
    have hmap : (vertex :: (bn.Vdata vertex).parents.reverse).map
        (fun s => (bn.Vdata s).vals.length)
        = (TableCPDFactor.init vertex bn).card := by
      simp [TableCPDFactor.init]
    rw [hmap]
    rfl

theorem multiplyfactor_consistent (A B : TableCPDFactor)
    (hA : Consistent A) (hB : Consistent B) : Consistent (A.multiplyfactor B) := by
  obtain ⟨hndA, hlenA, hposA, hvalsA, hstrA⟩ := hA
  obtain ⟨hndB, hlenB, hposB, hvalsB, hstrB⟩ := hB
  obtain ⟨hscope, hcard⟩ := multiplyfactor_scope_card A B (le_of_eq hlenB.symm) hndB
  have hndR : (A.multiplyfactor B).scope.Nodup := by
    rw [hscope]
    refine List.Nodup.append hndA (List.Nodup.filter _ hndB) ?_
    intro x hxA hxF
    have := List.of_mem_filter hxF
    simp at this
    exact this hxA
  have hlenR : (A.multiplyfactor B).card.length = (A.multiplyfactor B).scope.length := by
    rw [hscope, hcard]
    simp only [List.length_append, List.length_map]
    rw [hlenA]
    congr 1
    have h1 := congrArg List.length
      (zip_filter_fst B.scope B.card A.scope)
    simp only [List.length_map] at h1
    rw [h1, List.take_of_length_le (le_of_eq hlenB.symm)]
  refine ⟨hndR, hlenR, ?_, ?_, ?_⟩
  · intro c hc
    rw [hcard] at hc
    rcases List.mem_append.mp hc with hc | hc
    · exact hposA c hc
    · obtain ⟨p, hp, hc'⟩ := List.mem_map.mp hc
      have hpz := List.of_mem_filter hp
      have hmem : p ∈ B.scope.zip B.card := List.mem_of_mem_filter hp
      obtain ⟨_, hsnd⟩ := List.of_mem_zip hmem
      rw [← hc']
      exact hposB _ hsnd
  · show (odoLoop _ _ _ _ _ ((A.multiplyfactor B).card).prod _ _ _).length = _
    exact odoLoop_length _ _ _ _ _ _ _ _ _
  · show strideBuild ((A.multiplyfactor B).card.zip (A.multiplyfactor B).scope) [] 1 = _
    rw [strideBuild_eq _ [] 1 (fun p _ => rfl) ?_]
    · rw [List.nil_append]
      congr 1
      have : ∀ (l : List (Nat × String)),
          l.map (fun p => (p.2, p.1)) = l.map Prod.swap := by
        intro l; rfl
      rw [this, List.zip_swap]
    · have hmap : ((A.multiplyfactor B).card.zip (A.multiplyfactor B).scope).map Prod.snd
          = (A.multiplyfactor B).scope :=
        List.map_snd_zip _ _ (le_of_eq hlenR.symm)
      rw [hmap]
      exact hndR

theorem consistent_mixedRadixInv (f : TableCPDFactor) (hf : Consistent f) :
    MixedRadixInv f := by
  obtain ⟨hnd, hlen, hpos, hvals, hstr⟩ := hf
  refine ⟨hvals, ?_, ?_⟩
  · intro hpos0
    have h0 := dget_strideTable f.scope f.card 1 hnd (le_of_eq hlen.symm) 0 hpos0
    rw [hstr]
    rw [List.getD_eq_getElem _ _ hpos0]
    simpa using h0
  · intro i hi
    have hii : i < f.scope.length := by omega
    have h1 := dget_strideTable f.scope f.card 1 hnd (le_of_eq hlen.symm) i hii
    have h2 := dget_strideTable f.scope f.card 1 hnd (le_of_eq hlen.symm) (i + 1) hi
    have hic : i < f.card.length := by omega
    rw [hstr, List.getD_eq_getElem _ _ hi, List.getD_eq_getElem _ _ hii,
      List.getD_eq_getElem _ _ hic]
    rw [List.get_eq_getElem] at h1 h2
    rw [h1, h2]
    simp only [Option.getD_some, Nat.one_mul]
    congr 1
    rw [List.prod_take_succ _ _ hic]

/-! ## Claim C5

Construction, multiplication and reduction (in either mode) preserve the
mixed-radix invariant: the value table has size equal to the product of the
cardinalities, the first scope variable has stride 1, and each later scope
variable's stride is the previous variable's stride times the previous
variable's cardinality.  Construction requires well-formed node data
(distinct names, nonempty domains, correctly sized probability vectors —
what the CPT invariant of the spec and the constructor's assertions demand),
and multiplication and reduction require internally consistent inputs;
multiplication additionally requires compatible cardinalities on the shared
variables (the spec's §4.2 normal case — the mismatched-cardinality case is
claim C7's), which keeps every offset of its loop in range. -/

/-- Claim C5: factor construction (for well-formed node data), factor
multiplication (for internally consistent, cardinality-compatible factors)
and successful factor reduction in either mode preserve the specification's
mixed-radix invariant; multiplication and reduction moreover preserve full
internal consistency. -/
theorem factor_ops_preserve_mixed_radix_invariant :
    (∀ (bn : DiscreteBayesianNetwork) (vertex : String), InitWF bn vertex →
      MixedRadixInv (TableCPDFactor.init vertex bn)) ∧
    (∀ A B : TableCPDFactor, Consistent A → Consistent B → CompatibleCards A B →
      MixedRadixInv (A.multiplyfactor B)) ∧
    (∀ (bn : DiscreteBayesianNetwork) (f : TableCPDFactor) (v : String)
       (val : Option String) (g : TableCPDFactor), Consistent f →
      f.reducefactor bn v val = .ok g → MixedRadixInv g) := by
  refine ⟨?_, ?_, ?_⟩
  · intro bn vertex h
    exact consistent_mixedRadixInv _ (init_consistent bn vertex h)
  · intro A B hA hB _
    exact consistent_mixedRadixInv _ (multiplyfactor_consistent A B hA hB)
  · intro bn f v val g hf h
    exact consistent_mixedRadixInv _ (reducefactor_ok_consistent bn f v val g hf h)

/-- Witness for claim C5: the three preservation statements applied to the
one-vertex network's factor, to a concrete multiplication, and to a concrete
sum-out reduction. -/
theorem factor_ops_preserve_mixed_radix_invariant_witness :
    InitWF bnA "A" ∧
    MixedRadixInv (TableCPDFactor.init "A" bnA) ∧
    Consistent { vals := [1, 1], scope := ["X"], card := [2], stride := [("X", 1)] } ∧
    Consistent { vals := [1, 1, 1], scope := ["Y"], card := [3], stride := [("Y", 1)] } ∧
    CompatibleCards { vals := [1, 1], scope := ["X"], card := [2], stride := [("X", 1)] }
      { vals := [1, 1, 1], scope := ["Y"], card := [3], stride := [("Y", 1)] } ∧
    MixedRadixInv (TableCPDFactor.multiplyfactor
      { vals := [1, 1], scope := ["X"], card := [2], stride := [("X", 1)] }
      { vals := [1, 1, 1], scope := ["Y"], card := [3], stride := [("Y", 1)] }) ∧
    (TableCPDFactor.init "A" bnA).reducefactor bnA "A" none
      = .ok { vals := [1], scope := [], card := [], stride := [] } ∧
    MixedRadixInv { vals := [1], scope := [], card := [], stride := [] } := by
  have hwf : InitWF bnA "A" := ⟨by decide, by decide, by decide, fun key => rfl⟩
  have hred : (TableCPDFactor.init "A" bnA).reducefactor bnA "A" none
      = .ok { vals := [1], scope := [], card := [], stride := [] } := by
    norm_num [TableCPDFactor.init, TableCPDFactor.reducefactor, bnA, pyIndexOf,
      strideBuildBN, dictSet, dget, reduceFinish, reduceRun, sumEntry,
      strideDivLoop, dictDel, List.range, List.range.loop, List.getD, List.get?,
      TableCPDFactor.mk.injEq]
  refine ⟨hwf,
    factor_ops_preserve_mixed_radix_invariant.1 bnA "A" hwf,
    by decide, by decide, by decide,
    factor_ops_preserve_mixed_radix_invariant.2.1 _ _ (by decide) (by decide) (by decide),
    hred,
    factor_ops_preserve_mixed_radix_invariant.2.2 bnA _ "A" none _
      (init_consistent bnA "A" hwf) hred⟩

/-! ### Mixed-radix digit lemmas (for claim C3) -/

theorem digits_length (cards : List Nat) : ∀ n, (digits cards n).length = cards.length := by
  induction cards with
  | nil => intro n; rfl
  | cons c cs ih => intro n; simp [digits, ih]

theorem digits_zero_getD (cards : List Nat) : ∀ i, (digits cards 0).getD i 0 = 0 := by
  induction cards with
  | nil => intro i; simp [digits]
  | cons c cs ih =>
      intro i
      cases i with
      | zero => simp [digits]
      | succ j => simpa [digits] using ih j

theorem digits_succ (cards : List Nat) (hpos : ∀ c ∈ cards, 0 < c) :
    ∀ t, digits cards (t + 1) = incDigits cards (digits cards t) := by
  induction cards with
  | nil => intro t; rfl
  | cons c cs ih =>
      intro t
      have hc : 0 < c := hpos c (List.mem_cons_self _ _)
      have hmod := Nat.div_add_mod t c
      rw [digits, digits, incDigits]
      by_cases hwrap : t % c + 1 = c
      · rw [if_pos hwrap]
        have h1 : t + 1 = c * (t / c + 1) := by
          rw [Nat.mul_add, Nat.mul_one]
          omega
        have hdiv : (t + 1) / c = t / c + 1 := by
          rw [h1, Nat.mul_div_cancel_left _ hc]
        have hm : (t + 1) % c = 0 := by
          rw [h1, Nat.mul_mod_right]
        rw [hdiv, hm, ih (fun x hx => hpos x (List.mem_cons_of_mem _ hx)) (t / c)]
      · rw [if_neg hwrap]
        have hlt : t % c + 1 < c := by
          have := Nat.mod_lt t hc
          omega
        have h1 : t + 1 = c * (t / c) + (t % c + 1) := by omega
        have hdiv : (t + 1) / c = t / c := by
          rw [h1, Nat.mul_add_div hc, Nat.div_eq_of_lt hlt, Nat.add_zero]
        have hm : (t + 1) % c = t % c + 1 := by
          rw [h1, Nat.mul_add_mod, Nat.mod_eq_of_lt hlt]
        rw [hdiv, hm]

theorem digits_valD (cards : List Nat) :
    ∀ ds : List Nat, List.Forall₂ (· < ·) ds cards → digits cards (valD cards ds) = ds := by
  induction cards with
  | nil =>
      intro ds hds
      cases hds
      rfl
  | cons c cs ih =>
      intro ds hds
      cases hds with
      | cons hd hrest =>
          rename_i d ds'
          rw [valD, digits]
          have hc : 0 < c := Nat.lt_of_le_of_lt (Nat.zero_le d) hd
          have hm : (d + c * valD cs ds') % c = d := by
            rw [Nat.add_mul_mod_self_left, Nat.mod_eq_of_lt hd]
          have hdv : (d + c * valD cs ds') / c = valD cs ds' := by
            rw [Nat.add_mul_div_left _ _ hc, Nat.div_eq_of_lt hd, Nat.zero_add]
          rw [hm, hdv, ih ds' hrest]

theorem valD_lt_prod (cards : List Nat) :
    ∀ ds : List Nat, List.Forall₂ (· < ·) ds cards → valD cards ds < cards.prod := by
  induction cards with
  | nil =>
      intro ds hds
      cases hds
      simp [valD]
  | cons c cs ih =>
      intro ds hds
      cases hds with
      | cons hd hrest =>
          rename_i d ds'
          rw [valD, List.prod_cons]
          have hV := ih ds' hrest
          calc d + c * valD cs ds' < c + c * valD cs ds' := by omega
            _ = c * (valD cs ds' + 1) := by ring
            _ ≤ c * cs.prod := Nat.mul_le_mul_left c hV

theorem dotStride_zero (names : List String) (st : List (String × Nat)) :
    ∀ (cards : List Nat), dotStride (digits cards 0) names st = 0 := by
  induction names with
  | nil => intro cards; cases digits cards 0 <;> rfl
  | cons s ss ih =>
      intro cards
      cases cards with
      | nil => rfl
      | cons c cs =>
          rw [digits, Nat.zero_mod, Nat.zero_div, dotStride, ih cs]
          simp

theorem dotStride_cons_notmem (ds : List Nat) (ss : List String)
    (s : String) (w : Nat) (T : List (String × Nat)) (hs : s ∉ ss) :
    dotStride ds ss ((s, w) :: T) = dotStride ds ss T := by
  induction ss generalizing ds with
  | nil => cases ds <;> rfl
  | cons x xs ih =>
      cases ds with
      | nil => rfl
      | cons d ds' =>
          have hxs : s ≠ x := fun hEq => hs (hEq ▸ List.mem_cons_self x xs)
          rw [dotStride, dotStride, dget, if_neg hxs,
            ih ds' (fun hmem => hs (List.mem_cons_of_mem _ hmem))]

theorem dotStride_strideTable (names : List String) :
    ∀ (cards ds : List Nat) (t : Nat), names.Nodup →
      ds.length = names.length → cards.length = names.length →
      dotStride ds names (strideTable (names.zip cards) t) = t * valD cards ds := by
  induction names with
  | nil =>
      intro cards ds t _ hds _
      rw [List.length_nil] at hds
      rw [List.length_eq_zero] at hds
      subst hds
      simp [dotStride, valD]
  | cons s ss ih =>
      intro cards ds t hnd hds hcards
      cases ds with
      | nil => simp at hds
      | cons d ds' =>
          cases cards with
          | nil => simp at hcards
          | cons c cs =>
              have hzip : (s :: ss).zip (c :: cs) = (s, c) :: ss.zip cs := rfl
              rw [hzip, strideTable, dotStride, dget, if_pos rfl,
                dotStride_cons_notmem ds' ss s t _ (List.nodup_cons.mp hnd).1,
                ih cs ds' (t * c) (List.nodup_cons.mp hnd).2
                  (by simpa using hds) (by simpa using hcards),
                valD]
              simp only [Option.getD_some]
              ring

theorem strideD_eq (st : List (String × Nat)) (s : String) :
    strideD st s = ((dget st s).getD 0 : Nat) := by
  cases h : dget st s with
  | none => simp [strideD, h]
  | some w => simp [strideD, h]

theorem odoUpdate_inv (sd od : List (String × Nat)) :
    ∀ (names : List String) (cards ds : List Nat) (a : String → Nat) (j0 k0 : Int),
      names.Nodup → cards.length = names.length → ds.length = names.length →
      (∀ i (hi : i < names.length), a (names.get ⟨i, hi⟩) = ds.getD i 0) →
      (∀ i (hi : i < names.length),
          (odoUpdate sd od (cards.zip names) a
            (j0 + (dotStride ds names sd : Int)) (k0 + (dotStride ds names od : Int))).1
            (names.get ⟨i, hi⟩) = (incDigits cards ds).getD i 0) ∧
      (∀ s, s ∉ names →
          (odoUpdate sd od (cards.zip names) a
            (j0 + (dotStride ds names sd : Int)) (k0 + (dotStride ds names od : Int))).1 s
            = a s) ∧
      (odoUpdate sd od (cards.zip names) a
          (j0 + (dotStride ds names sd : Int)) (k0 + (dotStride ds names od : Int))).2.1
        = j0 + (dotStride (incDigits cards ds) names sd : Int) ∧
      (odoUpdate sd od (cards.zip names) a
          (j0 + (dotStride ds names sd : Int)) (k0 + (dotStride ds names od : Int))).2.2
        = k0 + (dotStride (incDigits cards ds) names od : Int) := by
  intro names
  induction names with
  | nil =>
      intro cards ds a j0 k0 _ hcards hds ha
      simp only [List.length_nil] at hcards hds
      rw [List.length_eq_zero] at hcards hds
      subst hcards; subst hds
      exact ⟨fun i hi => absurd hi (by simp), fun s _ => rfl, rfl, rfl⟩
  | cons s ss ih =>
      intro cards ds a j0 k0 hnd hcards hds ha
      cases cards with
      | nil => simp at hcards
      | cons c cs =>
          cases ds with
          | nil => simp at hds
          | cons d ds' =>
              have hsnot : s ∉ ss := (List.nodup_cons.mp hnd).1
              have has : a s = d := by
                have := ha 0 (by simp)
                simpa using this
              have hzip : (c :: cs).zip (s :: ss) = (c, s) :: cs.zip ss := rfl
              have hdot : ∀ (st : List (String × Nat)) (e : Nat),
                  (dotStride (e :: ds') (s :: ss) st : Int)
                    = (e : Int) * strideD st s + (dotStride ds' ss st : Int) := by
                intro st e
                rw [dotStride, strideD_eq]
                push_cast
                ring
              rw [hzip, odoUpdate]
              simp only [Function.update_same, has]
              by_cases hwrap : d + 1 = c
              · rw [if_pos hwrap]
                have hstep : ∀ st (z0 : Int),
                    z0 + (dotStride (d :: ds') (s :: ss) st : Int)
                      - ((c : Int) - 1) * strideD st s
                      = z0 + (dotStride ds' ss st : Int) := by
                  intro st z0
                  rw [hdot st d]
                  have hd : (d : Int) = (c : Int) - 1 := by omega
                  rw [hd]
                  ring
                rw [hstep sd j0, hstep od k0]
                have ha' : ∀ i (hi : i < ss.length),
                    (Function.update (Function.update a s (d + 1)) s 0) (ss.get ⟨i, hi⟩)
                      = ds'.getD i 0 := by
                  intro i hi
                  have hne : ss.get ⟨i, hi⟩ ≠ s :=
                    fun hEq => hsnot (hEq ▸ List.get_mem ss i hi)
                  rw [Function.update_noteq hne, Function.update_noteq hne]
                  have := ha (i + 1) (by simpa using hi)
                  simpa using this
                obtain ⟨h1, h2, h3, h4⟩ :=
                  ih cs ds' (Function.update (Function.update a s (d + 1)) s 0) j0 k0
                    (List.nodup_cons.mp hnd).2 (by simpa using hcards)
                    (by simpa using hds) ha'
                refine ⟨?_, ?_, ?_, ?_⟩
                · intro i hi
                  rw [incDigits, if_pos hwrap]
                  cases i with
                  | zero =>
                      have hgs : (s :: ss).get ⟨0, hi⟩ = s := rfl
                      rw [hgs, h2 s hsnot, Function.update_same]
                      rfl
                  | succ m =>
                      have hm : m < ss.length := by simpa using hi
                      have := h1 m hm
                      simpa using this
                · intro x hx
                  have hxs : x ≠ s := fun hEq => hx (hEq ▸ List.mem_cons_self s ss)
                  have hxss : x ∉ ss := fun hmem => hx (List.mem_cons_of_mem _ hmem)
                  rw [h2 x hxss, Function.update_noteq hxs, Function.update_noteq hxs]
                · rw [h3, incDigits, if_pos hwrap, dotStride]
                  push_cast
                  ring
                · rw [h4, incDigits, if_pos hwrap, dotStride]
                  push_cast
                  ring
              · rw [if_neg hwrap]
                refine ⟨?_, ?_, ?_, ?_⟩
                · intro i hi
                  dsimp only
                  rw [incDigits, if_neg hwrap]
                  cases i with
                  | zero =>
                      have hgs : (s :: ss).get ⟨0, hi⟩ = s := rfl
                      rw [hgs, Function.update_same]
                      rfl
                  | succ m =>
                      have hm : m < ss.length := by simpa using hi
                      have hne : ss.get ⟨m, hm⟩ ≠ s :=
                        fun hEq => hsnot (hEq ▸ List.get_mem ss m hm)
                      have hgs : (s :: ss).get ⟨m + 1, hi⟩ = ss.get ⟨m, hm⟩ := rfl
                      rw [hgs, Function.update_noteq hne]
                      have := ha (m + 1) (by simpa using hm)
                      simpa using this
                · intro x hx
                  have hxs : x ≠ s := fun hEq => hx (hEq ▸ List.mem_cons_self s ss)
                  exact Function.update_noteq hxs _ a
                · dsimp only
                  rw [incDigits, if_neg hwrap, hdot sd d, hdot sd (d + 1)]
                  push_cast
                  ring
                · dsimp only
                  rw [incDigits, if_neg hwrap, hdot od d, hdot od (d + 1)]
                  push_cast
                  ring

theorem odoLoop_getD (sv ov : List ℚ) (sd od : List (String × Nat))
    (names : List String) (cards : List Nat)
    (hnd : names.Nodup) (hcards : cards.length = names.length)
    (hpos : ∀ c ∈ cards, 0 < c) :
    ∀ (count t : Nat) (a : String → Nat) (j k : Int),
      (∀ i (hi : i < names.length), a (names.get ⟨i, hi⟩) = (digits cards t).getD i 0) →
      j = (dotStride (digits cards t) names sd : Int) →
      k = (dotStride (digits cards t) names od : Int) →
      ∀ m, m < count →
        (odoLoop sv ov sd od (cards.zip names) count a j k).getD m 0
          = pyIdx sv (dotStride (digits cards (t + m)) names sd)
            * pyIdx ov (dotStride (digits cards (t + m)) names od) := by
  intro count
  induction count with
  | zero => intro t a j k _ _ _ m hm; omega
  | succ n ih =>
      intro t a j k ha hj hk m hm
      rw [odoLoop]
      cases m with
      | zero =>
          rw [List.getD_cons_zero, hj, hk, Nat.add_zero]
      | succ m' =>
          rw [List.getD_cons_succ]
          have hinv := odoUpdate_inv sd od names cards (digits cards t) a 0 0 hnd hcards
            ((digits_length cards t).trans hcards) ha
          rw [Int.zero_add, Int.zero_add] at hinv
          obtain ⟨h1, _, h3, h4⟩ := hinv
          rw [← hj, ← hk] at h1 h3 h4
          have hm' : m' < n := by omega
          have hstep : t + (m' + 1) = (t + 1) + m' := by omega
          rw [hstep]
          refine ih (t + 1) _ _ _ ?_ ?_ ?_ m' hm'
          · intro i hi
            rw [h1 i hi, digits_succ cards hpos t]
          · rw [h3, Int.zero_add, digits_succ cards hpos t]
          · rw [h4, Int.zero_add, digits_succ cards hpos t]

/-- Value table of `multiplyfactor` as the specification describes it: the
entry at an assignment's flat index (computed through the product factor's
own strides) is the product of the operands' entries at the indices obtained
through their respective stride dicts, with stride 0 for absent variables. -/
theorem multiplyfactor_values (A B : TableCPDFactor)
    (hA : Consistent A) (hB : Consistent B) :
    ∀ ds : List Nat, List.Forall₂ (· < ·) ds (A.multiplyfactor B).card →
      (A.multiplyfactor B).vals.getD
          (dotStride ds (A.multiplyfactor B).scope (A.multiplyfactor B).stride) 0
        = A.vals.getD (dotStride ds (A.multiplyfactor B).scope A.stride) 0
          * B.vals.getD (dotStride ds (A.multiplyfactor B).scope B.stride) 0 := by
  intro ds hds
  have hR := multiplyfactor_consistent A B hA hB
  obtain ⟨hndR, hlenR, hposR, hvalsR, hstrR⟩ := hR
  have hlds : ds.length = (A.multiplyfactor B).card.length := List.Forall₂.length_eq hds
  -- the claim index through the product's stride dict is the mixed-radix value
  have hidx : dotStride ds (A.multiplyfactor B).scope (A.multiplyfactor B).stride
      = valD (A.multiplyfactor B).card ds := by
    rw [hstrR, dotStride_strideTable (A.multiplyfactor B).scope
      (A.multiplyfactor B).card ds 1 hndR (by omega) hlenR, Nat.one_mul]
  have hn : valD (A.multiplyfactor B).card ds < (A.multiplyfactor B).card.prod :=
    valD_lt_prod _ ds hds
  have hdig : digits (A.multiplyfactor B).card (valD (A.multiplyfactor B).card ds) = ds :=
    digits_valD _ ds hds
  -- evaluate the odometer loop
  have hloop := odoLoop_getD A.vals B.vals A.stride B.stride
    (A.multiplyfactor B).scope (A.multiplyfactor B).card hndR hlenR hposR
    ((A.multiplyfactor B).card.prod) 0 (fun _ => 0) 0 0
    (fun i hi => (digits_zero_getD _ i).symm)
    (by rw [dotStride_zero]; rfl)
    (by rw [dotStride_zero]; rfl)
    (valD (A.multiplyfactor B).card ds) hn
  rw [Nat.zero_add, hdig] at hloop
  have hvals : (A.multiplyfactor B).vals
      = odoLoop A.vals B.vals A.stride B.stride
          ((A.multiplyfactor B).card.zip (A.multiplyfactor B).scope)
          ((A.multiplyfactor B).card.prod) (fun _ => 0) 0 0 := rfl
  rw [hidx, hvals, hloop, pyIdx, pyIdx, Int.toNat_natCast, Int.toNat_natCast]

/-! ## Claim C3

The full contract of `multiplyfactor`: merged scope (receiver first,
operand's new variables appended in first-seen order), full-size value
table, and the odometer loop computing, at every assignment of the union
scope, the product of the operands' entries at the assignment restricted to
their own scopes (absent variables contributing stride 0). -/

/-- Claim C3: for internally consistent factors, `multiplyfactor` produces
the scope `A.scope ++ (B.scope minus A.scope)`, a value table of length
equal to the product of the merged cardinalities, and, for every full
assignment of the union scope (digit list bounded by the merged
cardinalities), the entry at the assignment's mixed-radix flat index equals
the product of the receiver's and the operand's entries at the assignment
restricted to their own scopes via their stride dicts. -/
theorem multiplyfactor_spec (A B : TableCPDFactor)
    (hA : Consistent A) (hB : Consistent B) :
    (A.multiplyfactor B).scope = A.scope ++ B.scope.filter (fun x => x ∉ A.scope) ∧
    (A.multiplyfactor B).vals.length = (A.multiplyfactor B).card.prod ∧
    ∀ ds : List Nat, List.Forall₂ (· < ·) ds (A.multiplyfactor B).card →
      (A.multiplyfactor B).vals.getD
          (dotStride ds (A.multiplyfactor B).scope (A.multiplyfactor B).stride) 0
        = A.vals.getD (dotStride ds (A.multiplyfactor B).scope A.stride) 0
          * B.vals.getD (dotStride ds (A.multiplyfactor B).scope B.stride) 0 := by
  refine ⟨(multiplyfactor_scope_card A B (le_of_eq hB.2.1.symm) hB.1).1, ?_, ?_⟩
  · exact (multiplyfactor_consistent A B hA hB).2.2.2.1
  · exact multiplyfactor_values A B hA hB

/-- Witness for claim C3 at two concrete consistent factors over scopes
["X"] and ["X", "Y"]. -/
theorem multiplyfactor_spec_witness :
    Consistent { vals := [1, 2], scope := ["X"], card := [2], stride := [("X", 1)] } ∧
    Consistent { vals := [3, 4, 5, 6], scope := ["X", "Y"], card := [2, 2], stride := [("X", 1), ("Y", 2)] } ∧
    ((TableCPDFactor.multiplyfactor { vals := [1, 2], scope := ["X"], card := [2], stride := [("X", 1)] } { vals := [3, 4, 5, 6], scope := ["X", "Y"], card := [2, 2], stride := [("X", 1), ("Y", 2)] }).scope
      = ["X"] ++ ["X", "Y"].filter (fun x => x ∉ ["X"])) := by
  have h := multiplyfactor_spec
    { vals := [1, 2], scope := ["X"], card := [2], stride := [("X", 1)] }
    { vals := [3, 4, 5, 6], scope := ["X", "Y"], card := [2, 2], stride := [("X", 1), ("Y", 2)] }
    (by decide) (by decide)
  exact ⟨by decide, by decide, h.1⟩

/-! ## Claim C7

`multiplyfactor` performs no cardinality-consistency check at all: the merge
loop (lines 134-142) only tests membership of the variable name in the
receiver's scope, so a shared variable keeps the receiver's cardinality and
the product is built from the mismatched strides without any error. -/

/-- Claim C7 counterexample: multiplying a factor recording cardinality 2
for "X" by one recording cardinality 3 for "X" is not rejected — it
silently produces a factor that keeps the receiver's cardinality 2, with
the operand's third entry ignored. -/
theorem multiplyfactor_inconsistent_card_not_rejected :
    TableCPDFactor.multiplyfactor
        { vals := [1, 1], scope := ["X"], card := [2], stride := [("X", 1)] }
        { vals := [1, 1, 1], scope := ["X"], card := [3], stride := [("X", 1)] }
      = { vals := [1, 1], scope := ["X"], card := [2], stride := [("X", 1)] } ∧
    (2 : Nat) ≠ 3 := by
  constructor
  · norm_num [TableCPDFactor.multiplyfactor, mergeScope, odoLoop, odoUpdate,
      strideBuild, strideD, pyIdx, dictSet, dget, Function.update,
      TableCPDFactor.mk.injEq]
  · decide

/-- Claim C7 (amended): `multiplyfactor` contains no cardinality-consistency
check, so a shared variable recorded with different cardinalities is never
detected.  When the receiver records the smaller cardinality the operation
silently proceeds — the loop, run with Python's exact indexing semantics
(`odoLoopE` on the same inputs `multiplyfactor` passes it), stays in range
and succeeds with the same values — and the product keeps the receiver's
cardinality, ignoring the operand's.  When the receiver records the larger
cardinality, the loop's offset into the operand's values runs past the end
and the read raises `IndexError`: an accidental crash in the value loop, not
a detection or rejection of the mismatch. -/
theorem multiplyfactor_card_mismatch_directional :
    TableCPDFactor.multiplyfactor
        { vals := [4, 5], scope := ["X"], card := [2], stride := [("X", 1)] }
        { vals := [1, 2, 3], scope := ["X"], card := [3], stride := [("X", 1)] }
      = { vals := [4, 10], scope := ["X"], card := [2], stride := [("X", 1)] } ∧
    odoLoopE [4, 5] [1, 2, 3] [("X", 1)] [("X", 1)] [(2, "X")] 2 (fun _ => 0) 0 0
      = .ok [4, 10] ∧
    odoLoopE [1, 2, 3] [4, 5] [("X", 1)] [("X", 1)] [(3, "X")] 3 (fun _ => 0) 0 0
      = .error .indexError ∧
    cardOf (TableCPDFactor.multiplyfactor
        { vals := [4, 5], scope := ["X"], card := [2], stride := [("X", 1)] }
        { vals := [1, 2, 3], scope := ["X"], card := [3], stride := [("X", 1)] }) "X" = 2 := by
  have h1 : TableCPDFactor.multiplyfactor
        { vals := [4, 5], scope := ["X"], card := [2], stride := [("X", 1)] }
        { vals := [1, 2, 3], scope := ["X"], card := [3], stride := [("X", 1)] }
      = { vals := [4, 10], scope := ["X"], card := [2], stride := [("X", 1)] } := by
    norm_num [TableCPDFactor.multiplyfactor, mergeScope, odoLoop, odoUpdate,
      strideBuild, strideD, pyIdx, dictSet, dget, Function.update,
      TableCPDFactor.mk.injEq]
  refine ⟨h1, ?_, ?_, ?_⟩
  · norm_num [odoLoopE, pyIdxE, odoUpdate, strideD, dget, Function.update]
  · norm_num [odoLoopE, pyIdxE, odoUpdate, strideD, dget, Function.update]
  · rw [h1]
    decide

/-! ### Lemmas about the conditioning pass (for claim C9) -/

theorem set_append_cons (pre : List TableCPDFactor) (x : TableCPDFactor)
    (rest : List TableCPDFactor) (y : TableCPDFactor) :
    (pre ++ x :: rest).set pre.length y = pre ++ y :: rest := by
  induction pre with
  | nil => rfl
  | cons p ps ih => simp [List.set, ih]

theorem getD_append_cons (pre : List TableCPDFactor) (x : TableCPDFactor)
    (rest : List TableCPDFactor) (d : TableCPDFactor) :
    (pre ++ x :: rest).getD pre.length d = x := by
  induction pre with
  | nil => rfl
  | cons p ps ih => simpa using ih

theorem reducefactor_ok_scope (bn : DiscreteBayesianNetwork) (f : TableCPDFactor)
    (v : String) (val : Option String) (g : TableCPDFactor)
    (h : f.reducefactor bn v val = .ok g) : g.scope = f.scope.erase v := by
  unfold TableCPDFactor.reducefactor at h
  dsimp only at h
  repeat' split at h
  all_goals first
    | (injection h with h'; rw [← h']; simp [reduceFinish])
    | (cases h)
    | simp [reduceFinish]

theorem condReduceStep_range (bn : DiscreteBayesianNetwork) (v value : String) :
    ∀ (post pre : List TableCPDFactor),
      (∀ f ∈ post, 0 < f.scope.count v → exOk (f.reducefactor bn v (some value)) = true) →
      ∃ opts, condReduceStep bn v value (List.range' pre.length post.length) (pre ++ post)
        = (pre ++ post.map
            (fun f => if 0 < f.scope.count v then reduceOr bn f v value else f),
           .ok opts) := by
  intro post
  induction post with
  | nil => intro pre _; exact ⟨[], by simp [condReduceStep]⟩
  | cons f rest ih =>
      intro pre hok
      rw [List.length_cons, List.range'_succ, condReduceStep,
        getD_append_cons pre f rest default]
      by_cases hm : 0 < f.scope.count v
      · have hex : exOk (f.reducefactor bn v (some value)) = true :=
          hok f (List.mem_cons_self _ _) hm
        cases hred : f.reducefactor bn v (some value) with
        | error e => rw [hred] at hex; simp [exOk] at hex
        | ok f' =>
            rw [if_pos hm]
            dsimp only
            rw [set_append_cons pre f rest f']
            have hpre : pre.length + 1 = (pre ++ [f']).length := by simp
            have happ : pre ++ f' :: rest = (pre ++ [f']) ++ rest := by simp
            rw [hpre, happ]
            obtain ⟨opts, hstep⟩ :=
              ih (pre ++ [f']) (fun g hg hmg => hok g (List.mem_cons_of_mem _ hg) hmg)
            rw [hstep]
            refine ⟨none :: opts, ?_⟩
            rw [List.map_cons, if_pos hm]
            have hf' : reduceOr bn f v value = f' := by rw [reduceOr, hred]
            simp [hf']
      · rw [if_neg hm]
        have hpre : pre.length + 1 = (pre ++ [f]).length := by simp
        have happ : pre ++ f :: rest = (pre ++ [f]) ++ rest := by simp
        rw [hpre, happ]
        obtain ⟨opts, hstep⟩ :=
          ih (pre ++ [f]) (fun g hg hmg => hok g (List.mem_cons_of_mem _ hg) hmg)
        rw [hstep]
        refine ⟨some pre.length :: opts, ?_⟩
        rw [List.map_cons, if_neg hm]
        simp

/-! ## Claim C9

`condition(evidence, in_place=False)` copies only the list container
(`factorlist = self.factorlist[:]`); the factor objects remain shared, and
`reducefactor` mutates them in place.  So even with `in_place=False`, every
factor of `self.factorlist` mentioning an evidence variable holds its
evidence-reduced table after the call (which then raises `AttributeError`,
see C2 — the mutations survive the exception). -/

/-- Claim C9: after calling `condition` with one evidence item and
`in_place = False`, the caller's `self.factorlist` contains the in-place
reduced factor wherever the factor's scope mentioned the evidence variable
(only the list container was copied); the reduced factor has the evidence
variable erased from its scope, so the pre-evidence table is gone. -/
theorem condition_in_place_false_still_mutates (bn : DiscreteBayesianNetwork)
    (v value : String) (self : List TableCPDFactor)
    (hok : ∀ f ∈ self, 0 < f.scope.count v →
      exOk (f.reducefactor bn v (some value)) = true) :
    (condition bn (some [(v, value)]) false false self).2
      = self.map (fun f => if 0 < f.scope.count v then reduceOr bn f v value else f) ∧
    ∀ f ∈ self, v ∈ f.scope →
      (reduceOr bn f v value).scope = f.scope.erase v ∧
      (reduceOr bn f v value).scope ≠ f.scope := by
  constructor
  · obtain ⟨opts, hstep⟩ := condReduceStep_range bn v value self [] hok
    simp only [List.nil_append, List.length_nil] at hstep
    rw [condition]
    simp only [if_neg (Bool.false_ne_true ∘ congrArg id)]
    rw [List.range_eq_range']
    rw [condLoop, hstep]
    dsimp only
    cases hfil : condFilterStep
        (self.map (fun f => if 0 < f.scope.count v then reduceOr bn f v value else f))
        opts with
    | error e => rfl
    | ok locals => simp [condLoop]
  · intro f hf hv
    have hm : 0 < f.scope.count v := List.count_pos_iff.mpr hv
    have hex := hok f hf hm
    cases hred : f.reducefactor bn v (some value) with
    | error e => rw [hred] at hex; simp [exOk] at hex
    | ok g =>
        have hro : reduceOr bn f v value = g := by rw [reduceOr, hred]
        have hsc := reducefactor_ok_scope bn f v (some value) g hred
        refine ⟨by rw [hro, hsc], ?_⟩
        rw [hro, hsc]
        intro hEq
        have hlen := congrArg List.length hEq
        rw [List.length_erase_of_mem hv] at hlen
        have hpos : 0 < f.scope.length := List.length_pos.mpr (List.ne_nil_of_mem hv)
        omega

/-- Witness for claim C9 on the one-vertex network: with `in_place = False`,
the stored factor is nevertheless replaced by its reduction (its scope
loses "A"). -/
theorem condition_in_place_false_still_mutates_witness :
    (∀ f ∈ initFactorlist bnA, 0 < f.scope.count "A" →
      exOk (f.reducefactor bnA "A" (some "x")) = true) ∧
    (condition bnA (some [("A", "x")]) false false (initFactorlist bnA)).2
      = (initFactorlist bnA).map
          (fun f => if 0 < f.scope.count "A" then reduceOr bnA f "A" "x" else f) := by
  refine ⟨by decide, ?_⟩
  exact (condition_in_place_false_still_mutates bnA "A" "x" (initFactorlist bnA)
    (by decide)).1

/-! ### Scope-set lemmas for the query pipeline (claims C4/C8) -/

theorem copy_eq (f : TableCPDFactor) : f.copy = f := rfl

theorem multiplyfactor_scope_mem (A B : TableCPDFactor)
    (hlenB : B.scope.length ≤ B.card.length) (hndB : B.scope.Nodup) (x : String) :
    x ∈ (A.multiplyfactor B).scope ↔ x ∈ A.scope ∨ x ∈ B.scope := by
  rw [(multiplyfactor_scope_card A B hlenB hndB).1, List.mem_append, List.mem_filter]
  constructor
  · rintro (h | ⟨h, _⟩)
    · exact Or.inl h
    · exact Or.inr h
  · rintro (h | h)
    · exact Or.inl h
    · by_cases hA : x ∈ A.scope
      · exact Or.inl hA
      · exact Or.inr ⟨h, by simpa using hA⟩

theorem foldl_mult_consistent (fs : List TableCPDFactor) :
    ∀ f : TableCPDFactor, Consistent f → (∀ g ∈ fs, Consistent g) →
      Consistent (fs.foldl TableCPDFactor.multiplyfactor f) := by
  induction fs with
  | nil => intro f hf _; exact hf
  | cons g gs ih =>
      intro f hf hgs
      rw [List.foldl_cons]
      exact ih _ (multiplyfactor_consistent f g hf (hgs g (List.mem_cons_self _ _)))
        (fun g' hg' => hgs g' (List.mem_cons_of_mem _ hg'))

theorem foldl_mult_scope_mem (fs : List TableCPDFactor) :
    ∀ (f : TableCPDFactor) (x : String), Consistent f → (∀ g ∈ fs, Consistent g) →
      (x ∈ (fs.foldl TableCPDFactor.multiplyfactor f).scope
        ↔ x ∈ f.scope ∨ ∃ g ∈ fs, x ∈ g.scope) := by
  induction fs with
  | nil =>
      intro f x hf _
      simp
  | cons g gs ih =>
      intro f x hf hgs
      rw [List.foldl_cons]
      have hg := hgs g (List.mem_cons_self _ _)
      rw [ih _ x (multiplyfactor_consistent f g hf hg)
          (fun g' hg' => hgs g' (List.mem_cons_of_mem _ hg')),
        multiplyfactor_scope_mem f g (le_of_eq hg.2.1.symm) hg.1 x]
      constructor
      · rintro ((h | h) | ⟨g', hg', h⟩)
        · exact Or.inl h
        · exact Or.inr ⟨g, List.mem_cons_self _ _, h⟩
        · exact Or.inr ⟨g', List.mem_cons_of_mem _ hg', h⟩
      · rintro (h | ⟨g', hg', h⟩)
        · exact Or.inl (Or.inl h)
        · rcases List.mem_cons.mp hg' with hEq | hmem
          · exact Or.inl (Or.inr (hEq ▸ h))
          · exact Or.inr ⟨g', hmem, h⟩

theorem reducefactor_ok_scope_mem (bn : DiscreteBayesianNetwork) (f : TableCPDFactor)
    (v : String) (val : Option String) (g : TableCPDFactor)
    (hnd : f.scope.Nodup) (h : f.reducefactor bn v val = .ok g) (x : String) :
    x ∈ g.scope ↔ x ∈ f.scope ∧ x ≠ v := by
  rw [reducefactor_ok_scope bn f v val g h, List.Nodup.mem_erase_iff hnd]
  tauto

theorem mentions_init (bn : DiscreteBayesianNetwork) (hwf : BNWF bn) (x : String) :
    Mentions (initFactorlist bn) x ↔ x ∈ bn.V := by
  constructor
  · rintro ⟨f, hf, hx⟩
    obtain ⟨v, hv, hfv⟩ := List.mem_map.mp hf
    rw [← hfv] at hx
    rcases List.mem_cons.mp hx with hEq | hmem
    · exact hEq ▸ hv
    · exact (hwf.2 v hv).2 x (List.mem_reverse.mp hmem)
  · intro hx
    exact ⟨TableCPDFactor.init x bn, List.mem_map_of_mem _ hx,
      List.mem_cons_self _ _⟩

theorem eliminatevar_ok (bn : DiscreteBayesianNetwork) (v : String)
    (fl fl' : List TableCPDFactor) (hcons : ∀ f ∈ fl, Consistent f)
    (h : sumproducteliminatevar bn v fl = .ok fl') :
    (∀ f ∈ fl', Consistent f) ∧ (∀ x, Mentions fl' x ↔ Mentions fl x ∧ x ≠ v) := by
  rw [sumproducteliminatevar] at h
  cases hfil : fl.filter (fun f => decide (v ∈ f.scope)) with
  | nil =>
      rw [hfil] at h
      injection h with h'
      subst h'
      have hnomention : ∀ f ∈ fl, v ∉ f.scope := by
        intro f hf hv
        have : f ∈ fl.filter (fun f => decide (v ∈ f.scope)) :=
          List.mem_filter.mpr ⟨hf, by simpa using hv⟩
        rw [hfil] at this
        cases this
      refine ⟨hcons, fun x => ?_⟩
      constructor
      · rintro ⟨f, hf, hx⟩
        refine ⟨⟨f, hf, hx⟩, fun hEq => hnomention f hf (hEq ▸ hx)⟩
      · rintro ⟨hm, _⟩
        exact hm
  | cons f0 fs =>
      rw [hfil] at h
      dsimp only at h
      have hconsM : ∀ g ∈ f0 :: fs, Consistent g := by
        intro g hg
        have : g ∈ fl.filter (fun f => decide (v ∈ f.scope)) := by rw [hfil]; exact hg
        exact hcons g (List.mem_of_mem_filter this)
      have hconsP : Consistent (fs.foldl TableCPDFactor.multiplyfactor f0) :=
        foldl_mult_consistent fs f0 (hconsM f0 (List.mem_cons_self _ _))
          (fun g hg => hconsM g (List.mem_cons_of_mem _ hg))
      cases hred : (fs.foldl TableCPDFactor.multiplyfactor f0).reducefactor bn v none with
      | error e => rw [hred] at h; cases h
      | ok r =>
          rw [hred] at h
          injection h with h'
          subst h'
          have hrcons : Consistent r :=
            reducefactor_ok_consistent bn _ v none r hconsP hred
          have hrmem : ∀ x, x ∈ r.scope ↔
              x ∈ (fs.foldl TableCPDFactor.multiplyfactor f0).scope ∧ x ≠ v :=
            reducefactor_ok_scope_mem bn _ v none r hconsP.1 hred
          have hpmem : ∀ x, x ∈ (fs.foldl TableCPDFactor.multiplyfactor f0).scope
              ↔ ∃ g ∈ f0 :: fs, x ∈ g.scope := by
            intro x
            rw [foldl_mult_scope_mem fs f0 x (hconsM f0 (List.mem_cons_self _ _))
              (fun g hg => hconsM g (List.mem_cons_of_mem _ hg))]
            constructor
            · rintro (h | ⟨g, hg, h⟩)
              · exact ⟨f0, List.mem_cons_self _ _, h⟩
              · exact ⟨g, List.mem_cons_of_mem _ hg, h⟩
            · rintro ⟨g, hg, h⟩
              rcases List.mem_cons.mp hg with hEq | hmem
              · exact Or.inl (hEq ▸ h)
              · exact Or.inr ⟨g, hmem, h⟩
          refine ⟨?_, ?_⟩
          · intro g hg
            rcases List.mem_append.mp hg with hg | hg
            · exact hcons g (List.mem_of_mem_filter hg)
            · rcases List.mem_singleton.mp hg with rfl
              exact hrcons
          · intro x
            constructor
            · rintro ⟨g, hg, hx⟩
              rcases List.mem_append.mp hg with hg | hg
              · have hgfl := List.mem_of_mem_filter hg
                have hgnv : v ∉ g.scope := by
                  have := List.of_mem_filter hg
                  simpa using this
                exact ⟨⟨g, hgfl, hx⟩, fun hEq => hgnv (hEq ▸ hx)⟩
              · rcases List.mem_singleton.mp hg with rfl
                obtain ⟨hxp, hxv⟩ := (hrmem x).mp hx
                obtain ⟨g', hg', hx'⟩ := (hpmem x).mp hxp
                have hg'fl : g' ∈ fl := by
                  have : g' ∈ fl.filter (fun f => decide (v ∈ f.scope)) := by
                    rw [hfil]; exact hg'
                  exact List.mem_of_mem_filter this
                exact ⟨⟨g', hg'fl, hx'⟩, hxv⟩
            · rintro ⟨⟨g, hg, hx⟩, hxv⟩
              by_cases hgv : v ∈ g.scope
              · have hgm : g ∈ f0 :: fs := by
                  rw [← hfil]
                  exact List.mem_filter.mpr ⟨hg, by simpa using hgv⟩
                refine ⟨r, List.mem_append.mpr (Or.inr (List.mem_singleton.mpr rfl)), ?_⟩
                rw [hrmem x]
                exact ⟨(hpmem x).mpr ⟨g, hgm, hx⟩, hxv⟩
              · refine ⟨g, List.mem_append.mpr (Or.inl ?_), hx⟩
                exact List.mem_filter.mpr ⟨hg, by simpa using hgv⟩

theorem sumproductve_ok (bn : DiscreteBayesianNetwork) :
    ∀ (E : List String) (fl fl2 : List TableCPDFactor) (factor : TableCPDFactor),
      sumproductve bn E fl = (fl2, .ok factor) → (∀ f ∈ fl, Consistent f) →
      Consistent factor ∧ (∀ x, x ∈ factor.scope ↔ Mentions fl x ∧ x ∉ E) := by
  intro E
  induction E with
  | nil =>
      intro fl fl2 factor h hcons
      cases fl with
      | nil =>
          rw [sumproductve] at h
          injection h with h1 h2
          cases h2
      | cons f0 rest =>
          rw [sumproductve] at h
          injection h with h1 h2
          injection h2 with h2
          subst h2
          rw [copy_eq]
          have hc0 := hcons f0 (List.mem_cons_self _ _)
          have hcr : ∀ g ∈ rest, Consistent g :=
            fun g hg => hcons g (List.mem_cons_of_mem _ hg)
          refine ⟨foldl_mult_consistent rest f0 hc0 hcr, fun x => ?_⟩
          rw [foldl_mult_scope_mem rest f0 x hc0 hcr]
          constructor
          · rintro (h | ⟨g, hg, h⟩)
            · exact ⟨⟨f0, List.mem_cons_self _ _, h⟩, by simp⟩
            · exact ⟨⟨g, List.mem_cons_of_mem _ hg, h⟩, by simp⟩
          · rintro ⟨⟨g, hg, h⟩, _⟩
            rcases List.mem_cons.mp hg with hEq | hmem
            · exact Or.inl (hEq ▸ h)
            · exact Or.inr ⟨g, hmem, h⟩
  | cons v E' ih =>
      intro fl fl2 factor h hcons
      rw [sumproductve] at h
      cases helim : sumproducteliminatevar bn v fl with
      | error e =>
          rw [helim] at h
          dsimp only at h
          injection h with h1 h2
          cases h2
      | ok fl'' =>
          rw [helim] at h
          dsimp only at h
          obtain ⟨hcons'', hmem''⟩ := eliminatevar_ok bn v fl fl'' hcons helim
          obtain ⟨hfac, hscope⟩ := ih fl'' fl2 factor h hcons''
          refine ⟨hfac, fun x => ?_⟩
          rw [hscope x, hmem'' x]
          simp only [List.mem_cons, not_or]
          tauto

/-! ### Success characterization of `condition` (claim C4) -/

theorem condFilterStep_ok_no_none (heap : List TableCPDFactor) :
    ∀ (opts : List (Option Nat)) (l : List Nat),
      condFilterStep heap opts = .ok l → none ∉ opts := by
  intro opts
  induction opts with
  | nil => intro l _; simp
  | cons o rest ih =>
      intro l h
      cases o with
      | none => rw [condFilterStep] at h; cases h
      | some i =>
          rw [condFilterStep] at h
          cases hr : condFilterStep heap rest with
          | error e => rw [hr] at h; cases h
          | ok l' =>
              simp only [List.mem_cons, not_or]
              exact ⟨by simp, ih l' hr⟩

theorem condReduceStep_all_some (bn : DiscreteBayesianNetwork) (v value : String) :
    ∀ (locals : List Nat) (heap h : List TableCPDFactor) (opts : List (Option Nat)),
      condReduceStep bn v value locals heap = (h, .ok opts) → none ∉ opts →
      h = heap ∧ opts = locals.map some ∧
        ∀ i ∈ locals, v ∉ (heap.getD i default).scope := by
  intro locals
  induction locals with
  | nil =>
      intro heap h opts hstep _
      rw [condReduceStep] at hstep
      injection hstep with h1 h2
      injection h2 with h2
      exact ⟨h1.symm, h2.symm, by simp⟩
  | cons i rest ih =>
      intro heap h opts hstep hnone
      rw [condReduceStep] at hstep
      by_cases hc : 0 < (heap.getD i default).scope.count v
      · rw [if_pos hc] at hstep
        cases hred : (heap.getD i default).reducefactor bn v (some value) with
        | error e =>
            rw [hred] at hstep
            injection hstep with ha hb
            cases hb
        | ok f' =>
            rw [hred] at hstep
            dsimp only at hstep
            cases hrec : condReduceStep bn v value rest (heap.set i f') with
            | mk h1 res =>
                rw [hrec] at hstep
                cases res with
                | error e =>
                    injection hstep with ha hb
                    cases hb
                | ok l =>
                    injection hstep with ha hb
                    injection hb with hb
                    exact absurd (hb ▸ List.mem_cons_self none l) hnone
      · rw [if_neg hc] at hstep
        cases hrec : condReduceStep bn v value rest heap with
        | mk h1 res =>
            rw [hrec] at hstep
            cases res with
            | error e =>
                injection hstep with ha hb
                cases hb
            | ok l =>
                injection hstep with ha hb
                injection hb with hb
                have hnone' : none ∉ l :=
                  fun hm => hnone (hb ▸ List.mem_cons_of_mem _ hm)
                obtain ⟨hh, hopts, hsc⟩ := ih heap h1 l hrec hnone'
                refine ⟨ha.symm.trans hh, ?_, ?_⟩
                · rw [← hb, hopts, List.map_cons]
                · intro j hj
                  rcases List.mem_cons.mp hj with hEq | hm
                  · subst hEq
                    intro hv
                    exact hc (List.count_pos_iff.mpr hv)
                  · exact hsc j hm

theorem condFilterStep_map_some (heap : List TableCPDFactor) :
    ∀ locals : List Nat, (∀ i ∈ locals, (heap.getD i default).scope ≠ []) →
      condFilterStep heap (locals.map some) = .ok locals := by
  intro locals
  induction locals with
  | nil => intro _; rfl
  | cons i rest ih =>
      intro hne
      rw [List.map_cons, condFilterStep,
        ih (fun j hj => hne j (List.mem_cons_of_mem _ hj))]
      dsimp only
      rw [if_pos (hne i (List.mem_cons_self _ _))]

theorem getD_mem_of_lt (heap : List TableCPDFactor) (i : Nat) (hi : i < heap.length) :
    heap.getD i default ∈ heap := by
  rw [List.getD_eq_getElem heap default hi]
  exact List.getElem_mem hi

theorem mem_exists_getD (heap : List TableCPDFactor) (f : TableCPDFactor) (hf : f ∈ heap) :
    ∃ i ∈ List.range heap.length, heap.getD i default = f := by
  obtain ⟨n, hn, hEq⟩ := List.getElem_of_mem hf
  exact ⟨n, List.mem_range.mpr hn, by rw [List.getD_eq_getElem heap default hn, hEq]⟩

theorem map_getD_range (l : List TableCPDFactor) :
    (List.range l.length).map (fun i => l.getD i default) = l := by
  apply List.ext_getElem
  · simp
  · intro i h1 h2
    simp only [List.getElem_map, List.getElem_range]
    exact List.getD_eq_getElem l default h2

theorem condLoop_ok_range (bn : DiscreteBayesianNetwork) :
    ∀ (ev : List (String × String)) (heap h : List TableCPDFactor) (locals : List Nat),
      (∀ f ∈ heap, f.scope ≠ []) →
      condLoop bn ev (List.range heap.length) heap = (h, .ok locals) →
      h = heap ∧ locals = List.range heap.length ∧
        ∀ p ∈ ev, ∀ f ∈ heap, p.1 ∉ f.scope := by
  intro ev
  induction ev with
  | nil =>
      intro heap h locals _ hloop
      rw [condLoop] at hloop
      injection hloop with h1 h2
      injection h2 with h2
      exact ⟨h1.symm, h2.symm, by simp⟩
  | cons p rest ih =>
      intro heap h locals hne hloop
      obtain ⟨v, value⟩ := p
      rw [condLoop] at hloop
      cases hstep : condReduceStep bn v value (List.range heap.length) heap with
      | mk h1 res1 =>
          rw [hstep] at hloop
          cases res1 with
          | error e =>
              injection hloop with ha hb
              cases hb
          | ok opts =>
              dsimp only at hloop
              cases hfil : condFilterStep h1 opts with
              | error e =>
                  rw [hfil] at hloop
                  injection hloop with ha hb
                  cases hb
              | ok locals1 =>
                  rw [hfil] at hloop
                  dsimp only at hloop
                  have hnn := condFilterStep_ok_no_none h1 opts locals1 hfil
                  obtain ⟨hh1, hopts, hsc⟩ :=
                    condReduceStep_all_some bn v value _ heap h1 opts hstep hnn
                  rw [hh1] at hfil hloop
                  have hneD : ∀ i ∈ List.range heap.length,
                      (heap.getD i default).scope ≠ [] := by
                    intro i hi
                    exact hne _ (getD_mem_of_lt heap i (List.mem_range.mp hi))
                  have hlocals1 : locals1 = List.range heap.length := by
                    rw [hopts, condFilterStep_map_some heap _ hneD] at hfil
                    injection hfil with hfil
                    exact hfil.symm
                  subst hlocals1
                  obtain ⟨hh, hl, hrest⟩ := ih heap h locals hne hloop
                  refine ⟨hh, hl, ?_⟩
                  intro q hq f hf
                  rcases List.mem_cons.mp hq with hEq | hm
                  · subst hEq
                    obtain ⟨i, hi, hgi⟩ := mem_exists_getD heap f hf
                    exact hgi ▸ hsc i hi
                  · exact hrest q hm f hf

theorem condition_some_ok (bn : DiscreteBayesianNetwork) (ev : List (String × String))
    (self ret h : List TableCPDFactor)
    (hne : ∀ f ∈ self, f.scope ≠ [])
    (hcond : condition bn (some ev) true false self = (.ok ret, h)) :
    h = self ∧ ∀ p ∈ ev, ∀ f ∈ self, p.1 ∉ f.scope := by
  rw [condition] at hcond
  simp only [if_neg (Bool.false_ne_true ∘ congrArg id)] at hcond
  cases hloop : condLoop bn ev (List.range self.length) self with
  | mk h1 res =>
      rw [hloop] at hcond
      cases res with
      | error e =>
          injection hcond with ha hb
          cases ha
      | ok locals =>
          dsimp only at hcond
          injection hcond with ha hb
          obtain ⟨hh1, hlocals, hrest⟩ := condLoop_ok_range bn ev self h1 locals hne hloop
          rw [hh1, hlocals] at hb
          refine ⟨?_, hrest⟩
          rw [← hb, if_pos trivial]
          exact map_getD_range self

theorem sum_map_div (l : List ℚ) (n : ℚ) : (l.map (· / n)).sum = l.sum / n := by
  induction l with
  | nil => simp
  | cons a t ih => simp [ih, add_div]

theorem consistent_vals_ne_nil (f : TableCPDFactor) (hf : Consistent f) :
    f.vals ≠ [] := by
  have hlen : f.vals.length = f.card.prod := hf.2.2.2.1
  have hpos : 0 < f.card.prod := List.prod_pos hf.2.2.1
  intro hnil
  rw [hnil, List.length_nil] at hlen
  omega

theorem initFactorlist_consistent (bn : DiscreteBayesianNetwork) (hwf : BNWF bn) :
    ∀ f ∈ initFactorlist bn, Consistent f := by
  intro f hf
  obtain ⟨v, hv, hfv⟩ := List.mem_map.mp hf
  exact hfv ▸ init_consistent bn v (hwf.2 v hv).1

theorem initFactorlist_scope_ne_nil (bn : DiscreteBayesianNetwork) :
    ∀ f ∈ initFactorlist bn, f.scope ≠ [] := by
  intro f hf
  obtain ⟨v, hv, hfv⟩ := List.mem_map.mp hf
  rw [← hfv]
  simp [TableCPDFactor.init]

/-! ## Claim C8

`specificquery` with a single query variable and a single accepted label
computes `condprob.vals[index * stride[var]]`: the single entry of the
`condprobve` result corresponding to that label, located through the result
factor's own stride dict. -/

/-- Claim C8: whenever the distribution query succeeds, `specificquery` with
one query variable and a one-label accepted set returns exactly the entry of
the `condprobve` factor at the label's domain index times the variable's
stride in that factor — the corresponding single entry of the distribution —
and leaves the same factor-list state. -/
theorem specificquery_singleton_eq_condprobve_entry
    (bn : DiscreteBayesianNetwork) (v l : String) (ev : List (String × String))
    (self : List TableCPDFactor) (F : TableCPDFactor) (fl' : List TableCPDFactor)
    (hq : condprobve bn [v] (some ev) self = (.ok F, fl'))
    (i : Nat) (hi : pyIndexOf (bn.Vdata v).vals l = some i)
    (s : Nat) (hs : dget F.stride v = some s)
    (hrange : i * s < F.vals.length) :
    specificquery bn [(v, [l])] (some ev) self = (.ok (F.vals.getD (i * s) 0), fl') := by
  have hr : rindicesCompute bn [(v, [l])] = .ok [(v, [i])] := by
    simp [rindicesCompute, hi, List.mapM, List.mapM.loop,
      Except.bind, Bind.bind, Except.map, Except.pure, Pure.pure, Functor.map]
  have hf : findentry F.stride [(v, [i])] 0 = .ok [i * s] := by
    simp [findentry, hs, List.foldl]
  have hsum : sumEntries F.vals [i * s] 0 = .ok (F.vals.getD (i * s) 0) := by
    rw [sumEntries, dif_pos hrange, sumEntries]
    rw [zero_add, List.getD_eq_getElem _ _ hrange]
    rfl
  rw [specificquery]
  simp only [List.map_cons, List.map_nil]
  rw [hq]
  dsimp only
  rw [hr]
  dsimp only
  rw [hf]
  dsimp only
  rw [hsum]

/-- Witness for claim C8 on the one-vertex network: the distribution over A
given empty evidence is [1/2, 1/2], and `specificquery {A: ["x"]}` returns
its entry 1/2. -/
theorem specificquery_singleton_witness :
    condprobve bnA ["A"] (some []) (initFactorlist bnA)
      = (.ok { vals := [1/2, 1/2], scope := ["A"], card := [2], stride := [("A", 1)] }, [{ vals := [1/2, 1/2], scope := ["A"], card := [2], stride := [("A", 1)] }]) ∧
    pyIndexOf (bnA.Vdata "A").vals "x" = some 0 ∧
    dget [("A", (1 : Nat))] "A" = some 1 ∧
    0 * 1 < 2 ∧
    specificquery bnA [("A", ["x"])] (some []) (initFactorlist bnA)
      = (.ok (1/2 : ℚ), [{ vals := [1/2, 1/2], scope := ["A"], card := [2], stride := [("A", 1)] }]) := by
  have hq : condprobve bnA ["A"] (some []) (initFactorlist bnA)
      = (.ok { vals := [1/2, 1/2], scope := ["A"], card := [2], stride := [("A", 1)] }, [{ vals := [1/2, 1/2], scope := ["A"], card := [2], stride := [("A", 1)] }]) := by
    norm_num [condprobve, condition, condLoop, condFilterStep, condReduceStep,
      initFactorlist, bnA, TableCPDFactor.init, strideBuildBN, dictSet, dget,
      sumproductve, sumproducteliminatevar, TableCPDFactor.copy,
      TableCPDFactor.multiplyfactor, mergeScope, odoLoop, odoUpdate, strideBuild,
      List.range, List.range.loop, Prod.mk.injEq, TableCPDFactor.mk.injEq]
  have happ := specificquery_singleton_eq_condprobve_entry bnA "A" "x" []
    (initFactorlist bnA)
    { vals := [1/2, 1/2], scope := ["A"], card := [2], stride := [("A", 1)] }
    [{ vals := [1/2, 1/2], scope := ["A"], card := [2], stride := [("A", 1)] }]
    hq 0 (by decide) 1 (by decide) (by norm_num)
  refine ⟨hq, by decide, by decide, by norm_num, ?_⟩
  rw [happ]
  norm_num

/-! ## Claim C1

The end-to-end scenario of `tests/test_inference.py`: querying C given
Q4 = "Yes".  The code raises `AttributeError` inside `condition` (the list
comprehension stores the `None` returned by `reducefactor`, and the
subsequent `if factor.scope` filter dereferences it), so `condprobve` never
returns; the values the claim states are exactly what the intended
(spec-modelled) conditioning step yields, matching the claimed decimal
literals to far better than the test's `assertAlmostEqual` tolerance. -/

/-- Claim C1 (code_bug evidence): on the test network with query {C} and
evidence {Q4: "Yes"}, the embedded `condprobve` raises `AttributeError`
instead of returning a distribution, while the same pipeline with the
spec-modelled conditioning step returns exactly
[7/82, 27/41, 21/82] = [0.0853658536585365…, 0.6585365853658536…,
0.2560975609756097…], the values the claim states. -/
theorem condprobve_test_crash_and_intended :
    (condprobve testBN ["C"] (some [("Q4", "Yes")]) (initFactorlist testBN)).1
      = .error .attributeError ∧
    (condprobveSpec testBN ["C"] [("Q4", "Yes")] (initFactorlist testBN)).map (·.vals)
      = .ok [7/82, 27/41, 21/82] ∧
    |(7 : ℚ)/82 - 0.0853658536585365| < 1/10^9 ∧
    |(27 : ℚ)/41 - 0.6585365853658537| < 1/10^9 ∧
    |(21 : ℚ)/82 - 0.2560975609756097| < 1/10^9 := by
  refine ⟨rfl, ?_, abs_lt.mpr (by norm_num), abs_lt.mpr (by norm_num),
    abs_lt.mpr (by norm_num)⟩
  simp [condprobveSpec, conditionSpec, initFactorlist, testBN, TableCPDFactor.init,
    explore, strideBuildBN, dictSet, dget, TableCPDFactor.reducefactor, pyIndexOf,
    reduceFinish, reduceRun, sumEntry, selEntry, strideDivLoop, dictDel,
    sumproductve, sumproducteliminatevar, TableCPDFactor.multiplyfactor,
    TableCPDFactor.copy, mergeScope, odoLoop, odoUpdate, strideBuild, strideD, pyIdx,
    List.mapM, List.mapM.loop, List.range, List.range.loop,
    List.getD, List.get?, List.count, List.countP, List.countP.go,
    Except.bind, Except.map, Except.pure, Bind.bind, Functor.map, Pure.pure,
    Function.update]
  norm_num

/-! ## Claim C2

`condition` can never perform the replacement the claim describes: the
comprehension `[factor.reducefactor(vertex, value) if ... else factor ...]`
stores the return value of `reducefactor`, which is `None`, and the filter
`if factor.scope` then raises `AttributeError`.  On a one-factor list with
evidence on its variable, the call crashes (after mutating the stored factor
in place); the spec-modelled conditioning instead returns the reduced list
with the empty-scope factor dropped. -/

/-- Claim C2 (code_bug evidence): for the one-vertex network with evidence
{A: "x"}, `condition` raises `AttributeError` (instead of returning the
reduced factor list), leaving the evidence-reduced factor in the caller's
state; the spec-modelled conditioning returns `[]` (the factor's scope
became empty, so it is dropped), which is what the claim describes. -/
theorem condition_replacement_crashes :
    (condition bnA (some [("A", "x")]) false false (initFactorlist bnA)).1
      = .error .attributeError ∧
    (condition bnA (some [("A", "x")]) false false (initFactorlist bnA)).2
      = [{ vals := [1/2], scope := [], card := [], stride := [] }] ∧
    conditionSpec bnA [("A", "x")] (initFactorlist bnA) = .ok [] := by
  refine ⟨rfl, ?_, ?_⟩ <;>
    simp [condition, conditionSpec, condLoop, condReduceStep, condFilterStep,
      initFactorlist, bnA, TableCPDFactor.init, strideBuildBN, dictSet, dget,
      TableCPDFactor.reducefactor, pyIndexOf, reduceFinish, reduceRun, selEntry,
      strideDivLoop, dictDel, List.mapM, List.mapM.loop,
      Except.bind, Except.map, Except.pure, Bind.bind, Functor.map, Pure.pure,
      List.count, List.countP, List.countP.go]

/-! ## Claim C6

Reducing a variable that is not in the factor's scope fails immediately:
`self.scope.index(vertex)` raises `ValueError`.  In Python, `ValueError` is
*not* a `LookupError` subclass (`LookupError`'s subclasses are `IndexError`
and `KeyError`), so the claim's "LookupError-class" is wrong about the
class, while its "never silently returns the factor unchanged" is right. -/

/-- Claim C6 counterexample: for a concrete factor whose scope does not
contain "Z", `reducefactor` fails with `ValueError`, which is not a
LookupError-class exception — refuting the claimed error class. -/
theorem reducefactor_missing_vertex_not_lookupError :
    (TableCPDFactor.init "C" testBN).reducefactor testBN "Z" none
      = .error .valueError ∧
    PyError.valueError.isLookupError = false := by
  exact ⟨rfl, rfl⟩

/-- Claim C6 (amended): reducing a variable absent from the scope always
fails — with a `ValueError`-class condition (from `list.index`), in either
mode — and never returns a factor. -/
theorem reducefactor_missing_vertex_fails (bn : DiscreteBayesianNetwork)
    (f : TableCPDFactor) (v : String) (value : Option String) (h : v ∉ f.scope) :
    f.reducefactor bn v value = .error .valueError := by
  unfold TableCPDFactor.reducefactor
  rw [pyIndexOf_eq_none f.scope v h]

/-- Witness for the amended claim C6 at a concrete factor and vertex. -/
theorem reducefactor_missing_vertex_fails_witness :
    "Z" ∉ (TableCPDFactor.init "C" testBN).scope ∧
    (TableCPDFactor.init "C" testBN).reducefactor testBN "Z" (some "C1")
      = .error .valueError :=
  ⟨by decide, reducefactor_missing_vertex_fails testBN _ "Z" (some "C1") (by decide)⟩

/-! ## Claim C10

`specificquery`'s default `evidence=None` flows through `condprobve` into
`condition`, where `None.items()` raises `AttributeError`; omitting the
evidence is not an empty evidence mapping (with which the same query
succeeds). -/

/-- Claim C10: calling `specificquery` with the default `evidence = None`
always fails with `AttributeError` and leaves the factor list untouched,
whereas the same query with an explicit empty evidence mapping succeeds on a
concrete network — omitted evidence is not treated as empty evidence. -/
theorem specificquery_none_evidence_fails :
    (∀ (bn : DiscreteBayesianNetwork) (query : List (String × List String))
       (self : List TableCPDFactor),
        specificquery bn query none self = (.error .attributeError, self)) ∧
    (specificquery bnA [("A", ["x"])] (some []) (initFactorlist bnA)).1 = .ok (1/2) := by
  constructor
  · intro bn query self
    rfl
  · norm_num [specificquery, condprobve, condition, condLoop, condFilterStep,
      initFactorlist, bnA, TableCPDFactor.init, strideBuildBN, dictSet, dget,
      sumproductve, sumproducteliminatevar, TableCPDFactor.copy,
      TableCPDFactor.multiplyfactor, mergeScope, odoLoop, odoUpdate, strideBuild,
      rindicesCompute, pyIndexOf, findentry, sumEntries,
      List.mapM, List.mapM.loop, List.range, List.range.loop, List.getD, List.get?,
      Except.bind, Except.map, Except.pure, Bind.bind, Functor.map, Pure.pure]

/-! ## Claim C4

Scope and normalization of a successful `condprobve`.  The normalization part
is right: every success path (with a well-formed initial factor list) divides
by the sum, so the values sum to exactly 1.  The scope part is not: a query
variable that is not a network vertex is silently dropped — the scope of the
returned factor is the set of query variables that are vertices, not the
query set itself. -/

/-- Claim C4 (counterexample): on the one-vertex network, `condprobve` with
the unknown query variable "X" and empty evidence succeeds, but the returned
factor's scope is empty rather than {"X"}. -/
theorem condprobve_scope_not_query :
    (condprobve bnA ["X"] (some []) (initFactorlist bnA)).1
      = .ok (TableCPDFactor.mk [(1 : ℚ)] [] [] []) ∧
    "X" ∉ (TableCPDFactor.mk [(1 : ℚ)] [] [] []).scope := by
  constructor
  · norm_num [condprobve, condition, condLoop, condFilterStep, condReduceStep,
      initFactorlist, bnA, TableCPDFactor.init, strideBuildBN, dictSet, dget,
      sumproductve, sumproducteliminatevar, TableCPDFactor.copy,
      TableCPDFactor.multiplyfactor, mergeScope, odoLoop, odoUpdate, strideBuild,
      TableCPDFactor.reducefactor, pyIndexOf, reduceRun, sumEntry,
      reduceFinish, strideDivLoop, dictDel,
      List.range, List.range.loop, List.getD, List.get?,
      Except.bind, Except.map, Except.pure, Bind.bind, Functor.map, Pure.pure,
      Prod.mk.injEq, TableCPDFactor.mk.injEq]
  · simp

/-- Claim C4 (amended): on a well-formed network with a freshly constructed
factor list, whenever `condprobve` succeeds the returned factor's scope is
exactly the set of query variables that are network vertices, and its values
sum to exactly 1. -/
theorem condprobve_ok_spec (bn : DiscreteBayesianNetwork) (query : List String)
    (ev : List (String × String)) (F : TableCPDFactor) (fl2 : List TableCPDFactor)
    (hwf : BNWF bn)
    (h : condprobve bn query (some ev) (initFactorlist bn) = (.ok F, fl2)) :
    (∀ x, x ∈ F.scope ↔ x ∈ query ∧ x ∈ bn.V) ∧ F.vals.sum = 1 := by
  rw [condprobve] at h
  split at h
  · injection h with ha hb
    cases ha
  · rename_i ret heap hcond
    obtain ⟨hheap, hev⟩ := condition_some_ok bn ev (initFactorlist bn) ret heap
      (initFactorlist_scope_ne_nil bn) hcond
    subst hheap
    dsimp only at h
    split at h
    · injection h with ha hb
      cases ha
    · rename_i h2 factor hsp
      obtain ⟨hfac, hscope⟩ := sumproductve_ok bn _ _ _ _ hsp
        (initFactorlist_consistent bn hwf)
      split at h
      · rename_i hvnil
        exact absurd hvnil (consistent_vals_ne_nil factor hfac)
      · split at h
        · injection h with ha hb
          cases ha
        · rename_i hnz
          injection h with ha hb
          injection ha with ha
          constructor
          · intro x
            rw [← ha]
            show x ∈ factor.scope ↔ _
            rw [hscope x, mentions_init bn hwf x]
            have hevV : x ∈ ev.map Prod.fst → x ∉ bn.V := by
              intro hx hxV
              obtain ⟨p, hp, hpx⟩ := List.mem_map.mp hx
              obtain ⟨f, hf, hxf⟩ := (mentions_init bn hwf x).mpr hxV
              exact hev p hp f hf (hpx ▸ hxf)
            constructor
            · rintro ⟨hxV, hnE⟩
              refine ⟨?_, hxV⟩
              by_contra hxq
              exact hnE (List.mem_filter.mpr
                ⟨hxV, decide_eq_true ⟨hxq, fun hx => hevV hx hxV⟩⟩)
            · rintro ⟨hxq, hxV⟩
              refine ⟨hxV, fun hxE => ?_⟩
              have hd := List.of_mem_filter hxE
              rw [decide_eq_true_eq] at hd
              exact hd.1 hxq
          · rw [← ha]
            show (factor.vals.map (· / factor.vals.sum)).sum = 1
            rw [sum_map_div]
            exact div_self hnz

/-- Witness for the amended claim C4: the one-vertex network is well formed,
and the scope/normalization conclusion holds at its concrete `condprobve`
result for query ["A"] and empty evidence. -/
theorem condprobve_ok_spec_witness :
    BNWF bnA ∧
    ((∀ x, x ∈ (TableCPDFactor.mk [(1 : ℚ)/2, 1/2] ["A"] [2] [("A", 1)]).scope ↔ x ∈ ["A"] ∧ x ∈ bnA.V) ∧
      (TableCPDFactor.mk [(1 : ℚ)/2, 1/2] ["A"] [2] [("A", 1)]).vals.sum = 1) := by
  have hwf : BNWF bnA := by
    refine ⟨by decide, ?_⟩
    intro v hv
    refine ⟨⟨by simp [bnA], by simp [bnA], by simp [bnA], fun key => rfl⟩, by simp [bnA]⟩
  have hq : condprobve bnA ["A"] (some []) (initFactorlist bnA)
      = (.ok (TableCPDFactor.mk [(1 : ℚ)/2, 1/2] ["A"] [2] [("A", 1)]), [TableCPDFactor.mk [(1 : ℚ)/2, 1/2] ["A"] [2] [("A", 1)]]) := by
    norm_num [condprobve, condition, condLoop, condFilterStep, condReduceStep,
      initFactorlist, bnA, TableCPDFactor.init, strideBuildBN, dictSet, dget,
      sumproductve, sumproducteliminatevar, TableCPDFactor.copy,
      TableCPDFactor.multiplyfactor, mergeScope, odoLoop, odoUpdate, strideBuild,
      List.range, List.range.loop, Prod.mk.injEq, TableCPDFactor.mk.injEq]
  exact ⟨hwf, condprobve_ok_spec bnA ["A"] [] _ _ hwf hq⟩

end LibPGM
